import Mathlib

/-!
Verification of the details view of `exa` (`src/output/details.rs`).

The development shallowly embeds the data model and the operations of the
details view: `Cell`, `Row`, the tree-branch stack (`TreePart`), the `Table`
with its two-pass `print_table`, the per-attribute column renderers, and the
collector `add_files_to_table` that gathers per-file results concurrently,
sorts them by the externally supplied comparator and appends rows.

Styling is not modelled: the ANSI colour theme is an external collaborator
(a pure lookup that never contributes to a cell's width), so `Style.paint`
is embedded as the identity on the underlying text.  Likewise the locale,
timezone, and user-database collaborators are embedded at their interfaces.
-/

/-- A string of `n` spaces, as pushed by `Cell::add_spaces`. -/
def spacesStr (n : Nat) : String :=
  String.mk (List.replicate n ' ')

/-- Embedding of `column::Cell`: an ANSI-coloured text fragment together
with its Unicode display width (field `length` in the source). -/
structure Cell where
  text : String
  length : Nat
  deriving Repr, DecidableEq

/-- Embedding of `Cell::empty`. -/
def Cell.empty : Cell := { text := "", length := 0 }

/-- Embedding of `Cell::append`: concatenates the texts and sums the widths
(the spec: cells are combined by concatenation which sums widths). -/
def Cell.append (c d : Cell) : Cell :=
  { text := c.text ++ d.text, length := c.length + d.length }

/-- Embedding of `Cell::add_spaces`: pushes `n` literal spaces. -/
def Cell.add_spaces (c : Cell) (n : Nat) : Cell :=
  { text := c.text ++ spacesStr n, length := c.length + n }

/-- Embedding of `Cell::paint`, with the style dropped: styling is an
external theme lookup and never counts toward the width, so the cell text
is the plain painted string and the width is its character count. -/
def Cell.paint (s : String) : Cell :=
  { text := s, length := s.length }

/-- Embedding of the `Row` struct: optional per-column cells, the name
cell, the tree depth, and the last-sibling flag. -/
structure Row where
  cells : Option (List Cell)
  name : Cell
  depth : Nat
  last : Bool
  deriving Repr, DecidableEq

/-- Embedding of `Row::column_width`: the width of the indexed cell when
the row has cells, and 0 for a cell-less (attribute or error) row.  The
source indexes `cells[index]`; rows built by the view always carry one
cell per column, so the out-of-range default 0 is never consulted there. -/
def Row.column_width (r : Row) (index : Nat) : Nat :=
  match r.cells with
  | some cells => ((cells.get? index).map Cell.length).getD 0
  | none => 0

/-- Embedding of the `TreePart` enum of branch states. -/
inductive TreePart where
  | Edge
  | Line
  | Corner
  | Blank
  deriving Repr, DecidableEq

/-- Embedding of `TreePart::ascii_art`. -/
def TreePart.ascii_art : TreePart → String
  | .Edge => "├──"
  | .Line => "│  "
  | .Corner => "└──"
  | .Blank => "   "

/-- Embedding of `Vec::resize(new_len, TreePart::Edge)` on the branch
stack: truncates when `new_len` is smaller than the current length and
pads with `Edge` when it is larger. -/
def resizeStack (stack : List TreePart) (newLen : Nat) : List TreePart :=
  if newLen ≤ stack.length then stack.take newLen
  else stack ++ List.replicate (newLen - stack.length) TreePart.Edge

/-- The branch stack as it stands when the glyphs of row `r` are emitted:
after `stack.resize(depth + 1, Edge)` and `stack[depth] = Corner/Edge`,
before the demotion step. -/
def stackAtEmit (stack : List TreePart) (r : Row) : List TreePart :=
  (resizeStack stack (r.depth + 1)).set r.depth
    (if r.last then TreePart.Corner else TreePart.Edge)

/-- The glyphs emitted for row `r`: the loop `for i in 1 .. depth + 1`
reads the stack at indices `1, ..., depth`. -/
def emittedParts (stack : List TreePart) (r : Row) : List TreePart :=
  (List.range r.depth).map (fun j => (stackAtEmit stack r).getD (j + 1) TreePart.Edge)

/-- The branch stack after row `r` has been fully processed: the element
at `depth` is demoted to `Blank` if the row was last, `Line` otherwise. -/
def stackAfter (stack : List TreePart) (r : Row) : List TreePart :=
  (stackAtEmit stack r).set r.depth
    (if r.last then TreePart.Blank else TreePart.Line)

/-- The branch stack after a whole prefix of rows has been processed,
starting from the empty stack `print_table` begins with. -/
def stackAfterRows (rows : List Row) : List TreePart :=
  rows.foldl stackAfter []

/-- Embedding of the column kinds of the `Column` enum that
`Table::display` dispatches on. -/
inductive SizeFormat where
  | DecimalBytes
  | BinaryBytes
  | JustBytes
  deriving Repr, DecidableEq

/-- The timestamp kinds a `Column::Timestamp` can carry. -/
inductive TimeKind where
  | Modified
  | Accessed
  | Created
  deriving Repr, DecidableEq

/-- Embedding of the `Column` enum. -/
inductive Column where
  | Permissions
  | FileSize (fmt : SizeFormat)
  | Timestamp (kind : TimeKind)
  | HardLinks
  | Inode
  | Blocks
  | User
  | Group
  | GitStatus
  deriving Repr, DecidableEq

/-- Embedding of the `Alignment` enum from `column.rs` (named `ColAlignment`
here because Mathlib already declares an `Alignment`). -/
inductive ColAlignment where
  | Left
  | Right
  deriving Repr, DecidableEq

/-- Modelled from the spec: `column.rs` is not part of the sources, and the
spec only states that every column kind carries a fixed left or right
alignment.  The numeric columns are right-aligned, the rest left-aligned;
the claims under verification are parametric in this choice. -/
def Column.alignment : Column → ColAlignment
  | .FileSize _ => .Right
  | .HardLinks => .Right
  | .Inode => .Right
  | .Blocks => .Right
  | _ => .Left

/-- Modelled from the spec: `column.rs` is not part of the sources; each
column has a header label used only by `add_header`. -/
def Column.header : Column → String
  | .Permissions => "Permissions"
  | .FileSize _ => "Size"
  | .Timestamp .Modified => "Date Modified"
  | .Timestamp .Accessed => "Date Accessed"
  | .Timestamp .Created => "Date Created"
  | .HardLinks => "Links"
  | .Inode => "inode"
  | .Blocks => "Blocks"
  | .User => "User"
  | .Group => "Group"
  | .GitStatus => "Git"

/-- The maximum of a list of widths, with 0 for the empty list: embeds
`iter().max().unwrap_or(0)` (on `Nat`, `foldr max 0` is that maximum). -/
def maxOr0 (l : List Nat) : Nat := l.foldr max 0

/-- Embedding of the row-and-column part of the `Table` struct.  The
locale, timezone, user database and current-year snapshot the renderers
consult are carried by `TableEnv` below; the colour theme is dropped. -/
structure Table where
  columns : List Column
  rows : List Row

/-- Embedding of the column-width computation in `Table::print_table`:
for each column index, the maximum of `row.column_width(n)` over all rows,
with `unwrap_or(0)` for an empty row list. -/
def Table.column_widths (t : Table) : List Nat :=
  (List.range t.columns.length).map
    (fun n => maxOr0 (t.rows.map (fun r => r.column_width n)))

/-- Embedding of `total_width`: column count plus the sum of widths. -/
def Table.total_width (t : Table) : Nat :=
  t.columns.length + t.column_widths.sum

/-- The cell region of one printed row: for a row with cells, the fold
over `column_widths.iter().enumerate()` that pads each cell per the
column's alignment and appends one space; for a cell-less row,
`total_width` spaces. -/
def renderCellsRegion (columns : List Column) (widths : List Nat)
    (total : Nat) (r : Row) : Cell :=
  match r.cells with
  | some cs =>
      widths.enum.foldl
        (fun cell nw =>
          let c := (cs.get? nw.1).getD Cell.empty
          let cell :=
            match (((columns.get? nw.1).map Column.alignment).getD ColAlignment.Left) with
            | .Left => (cell.append c).add_spaces (nw.2 - c.length)
            | .Right => (cell.add_spaces (nw.2 - c.length)).append c
          cell.add_spaces 1)
        Cell.empty
  | none => Cell.empty.add_spaces total

/-- One printed line: the cell region followed by the tree prefix (glyphs
at stack indices `1, ..., depth`, each counted with width 4), the single
separating space for nonzero depth, and the name cell. -/
def rowLine (columns : List Column) (widths : List Nat) (total : Nat)
    (stack : List TreePart) (r : Row) : Cell :=
  let base := renderCellsRegion columns widths total r
  let parts := emittedParts stack r
  let nameText :=
    String.join (parts.map TreePart.ascii_art)
      ++ (if r.depth ≠ 0 then " " else "") ++ r.name.text
  let nameLength :=
    4 * parts.length + (if r.depth ≠ 0 then 1 else 0) + r.name.length
  base.append { text := nameText, length := nameLength }

/-- Embedding of the row loop of `Table::print_table`: the fold threads
the (immutable) table, the branch stack and the output lines, mirroring
that the loop body reads `self` and writes only its local state. -/
def printStep (columns : List Column) (widths : List Nat) (total : Nat)
    (st : Table × List TreePart × List Cell) (r : Row) :
    Table × List TreePart × List Cell :=
  (st.1, stackAfter st.2.1 r, st.2.2 ++ [rowLine columns widths total st.2.1 r])

/-- Embedding of `Table::print_table`, also returning the table as the
pass leaves it (the source takes `&self`). -/
def Table.print_run (t : Table) : Table × List Cell :=
  let res := t.rows.foldl (printStep t.columns t.column_widths t.total_width)
    (t, [], [])
  (res.1, res.2.2)

/-- Embedding of `Table::print_table`: the final line sequence. -/
def Table.print_table (t : Table) : List Cell :=
  t.print_run.2

/-- Sequential recursive presentation of the row loop of `print_table`:
one line per row, threading the branch stack. -/
def printLines (columns : List Column) (widths : List Nat) (total : Nat)
    (stack : List TreePart) : List Row → List Cell
  | [] => []
  | r :: rs =>
      rowLine columns widths total stack r
        :: printLines columns widths total (stackAfter stack r) rs

/-- A cell-less row used by concrete instances below. -/
def mkRowD (d : Nat) (l : Bool) : Row :=
  { cells := none, name := Cell.paint "x", depth := d, last := l }

/-- A cell holding `n` spaces; `Cell::add_spaces` is appending it. -/
def spacesCell (n : Nat) : Cell := { text := spacesStr n, length := n }

/-- Concatenation of a list of cells, the shape the cell region of a
printed row takes. -/
def joinCells (l : List Cell) : Cell := l.foldl Cell.append Cell.empty

/-- A cell padded to width `w` on the spec's terms: left-aligned cells
get trailing spaces, right-aligned cells get leading spaces. -/
def padPiece : ColAlignment → Nat → Cell → Cell
  | .Left, w, c => c.add_spaces (w - c.length)
  | .Right, w, c => (spacesCell (w - c.length)).append c

/-- The complete printed piece for column `nw.1` of width `nw.2`: the
padded cell followed by the one separator space. -/
def colPiece (columns : List Column) (cs : List Cell) (nw : Nat × Nat) : Cell :=
  (padPiece (((columns.get? nw.1).map Column.alignment).getD ColAlignment.Left)
    nw.2 ((cs.get? nw.1).getD Cell.empty)).add_spaces 1

/-- The spec's column width: the maximum cell width of column `n` over
the rows that have cells; rows without cells do not take part. -/
def specColumnWidth (rows : List Row) (n : Nat) : Nat :=
  maxOr0 ((rows.filterMap Row.cells).map
    (fun cs => ((cs.get? n).map Cell.length).getD 0))

/-- Concrete table exercising C1: two columns, one cell-less row. -/
def c1Table : Table :=
  { columns := [Column.Permissions, Column.FileSize SizeFormat.JustBytes],
    rows :=
      [ { cells := some [Cell.paint "ab", Cell.paint "1"],
          name := Cell.paint "f", depth := 0, last := false },
        { cells := none, name := Cell.paint "e", depth := 1, last := true },
        { cells := some [Cell.paint "x", Cell.paint "123"],
          name := Cell.paint "g", depth := 0, last := true } ] }

/-- Embedding of `f::Type`, the file-type glyph selector. -/
inductive FileType where
  | File
  | Directory
  | Pipe
  | Link
  | Special
  deriving Repr, DecidableEq

/-- Embedding of `f::Permissions`. -/
structure Permissions where
  file_type : FileType
  user_read : Bool
  user_write : Bool
  user_execute : Bool
  group_read : Bool
  group_write : Bool
  group_execute : Bool
  other_read : Bool
  other_write : Bool
  other_execute : Bool
  deriving Repr, DecidableEq

/-- Embedding of `f::Links`. -/
structure FLinks where
  count : Nat
  multiple : Bool
  deriving Repr, DecidableEq

/-- Embedding of `f::GitStatus`. -/
inductive GitStatus where
  | NotModified
  | New
  | Modified
  | Deleted
  | Renamed
  | TypeChange
  deriving Repr, DecidableEq

/-- Embedding of `f::Git`: the staged and unstaged status characters. -/
structure Git where
  staged : GitStatus
  unstaged : GitStatus
  deriving Repr, DecidableEq

/-- The file-entry abstraction consumed by the renderers: the attribute
fields `Table::display` reads through the external `File` interface. -/
structure File where
  name : String
  name_width : Nat
  permissions : Permissions
  size : Option Nat
  modified : Int
  accessed : Int
  created : Int
  links : FLinks
  inode : Nat
  blocks : Option Nat
  user : Nat
  group : Nat
  git : Git
  deriving Repr, DecidableEq

/-- Embedding of `file.timestamp(t)`: selects the stored timestamp. -/
def File.timestamp (f : File) : TimeKind → Int
  | .Modified => f.modified
  | .Accessed => f.accessed
  | .Created => f.created

/-- Embedding of the `users` crate's mock user record. -/
structure MUser where
  uid : Nat
  name : String
  primary_group : Nat
  deriving Repr, DecidableEq

/-- Embedding of the `users` crate's mock group record. -/
structure MGroup where
  gid : Nat
  name : String
  members : List String
  deriving Repr, DecidableEq

/-- The identity-resolution collaborator (`users::Users`), embedded as
the finite map the `MockUsers` implementation realises. -/
structure MockUsers where
  current_uid : Nat
  users : List MUser
  groups : List MGroup
  deriving Repr, DecidableEq

def MockUsers.get_user_by_uid (m : MockUsers) (uid : Nat) : Option MUser :=
  m.users.find? (fun u => u.uid == uid)

def MockUsers.get_group_by_gid (m : MockUsers) (gid : Nat) : Option MGroup :=
  m.groups.find? (fun g => g.gid == gid)

/-- Modelled from the spec: the locale crate's integer formatting is an
external collaborator specified only as "the integer numeral" (optional
thousands grouping is locale data, not logic of this core); embedded as
the plain decimal numeral. -/
def format_int (n : Int) : String := toString n

/-- Round to the nearest integer, ties to even, the rounding of the
external float-formatting engine. -/
def roundHalfEven (q : ℚ) : Int :=
  let f := ⌊q⌋
  let frac := q - (f : ℚ)
  if frac < 1/2 then f
  else if 1/2 < frac then f + 1
  else if f % 2 = 0 then f else f + 1

/-- Modelled from the spec: the locale crate's float formatting with one
decimal place (`format_float(n, 1)`), for nonnegative inputs. -/
def format_float1 (q : ℚ) : String :=
  let r := roundHalfEven (q * 10)
  toString (r / 10) ++ "." ++ toString (r % 10)

/-- Embedding of the `number_prefix` crate's result type. -/
inductive SizeResult where
  | Standalone (bytes : ℚ)
  | Prefixed (symbol : String) (n : ℚ)
  deriving Repr, DecidableEq

/-- The scaling loop of the `number_prefix` crate: divide by the base
while the amount still reaches it, walking the unit symbols, capping at
the last symbol. -/
def scaleAmount (base : ℚ) : ℚ → List String → SizeResult
  | amt, [] => .Standalone amt
  | amt, [s] => .Prefixed s amt
  | amt, s :: s2 :: rest =>
      if amt < base then .Prefixed s amt
      else scaleAmount base (amt / base) (s2 :: rest)

/-- Modelled from the spec: the external `number_prefix` crate's
`decimal_prefix` — powers of 1000 with unit suffixes.  The source feeds
it `offset as f64`; sizes are embedded as exact rationals (exact for all
inputs the claims touch). -/
def number_prefix_decimal (x : ℚ) : SizeResult :=
  if x < 1000 then .Standalone x
  else scaleAmount 1000 (x / 1000) ["k", "M", "G", "T", "P", "E", "Z", "Y"]

/-- Modelled from the spec: the external `number_prefix` crate's
`binary_prefix` — powers of 1024 with unit suffixes. -/
def number_prefix_binary (x : ℚ) : SizeResult :=
  if x < 1024 then .Standalone x
  else scaleAmount 1024 (x / 1024) ["Ki", "Mi", "Gi", "Ti", "Pi", "Ei", "Zi", "Yi"]

/-- The `match result` arm of `Table::render_size`: a standalone byte
count prints as the plain numeral; a scaled value prints with one decimal
place under 10 and as an integer otherwise (`n as isize` truncates), the
cell width being numeral length plus symbol length. -/
def renderSizeResult : SizeResult → Cell
  | .Standalone bytes => Cell.paint (toString bytes)
  | .Prefixed symbol n =>
      let number := if n < 10 then format_float1 n else format_int ⌊n⌋
      { text := number ++ symbol, length := number.length + symbol.length }

/-- The numeral a scaled (`Prefixed`) value prints: one decimal place
under 10, truncated integer at 10 and above — the `number` binding of
`render_size`. -/
def scaledNumber (n : ℚ) : String :=
  if n < 10 then format_float1 n else format_int ⌊n⌋

/-- Embedding of `Table::render_size`. -/
def render_size (size : Option Nat) (size_format : SizeFormat) : Cell :=
  match size with
  | some offset =>
      match size_format with
      | .DecimalBytes => renderSizeResult (number_prefix_decimal (offset : ℚ))
      | .BinaryBytes => renderSizeResult (number_prefix_binary (offset : ℚ))
      | .JustBytes => Cell.paint (format_int (offset : Int))
  | none => Cell.paint "-"

/-- Civil date-time fields, the interface of the external datetime crate
(`tz.at(LocalDateTime::at(ts))` followed by the `DatePiece` accessors). -/
structure DateTime where
  year : Int
  month : Nat
  day : Nat
  hour : Nat
  minute : Nat
  deriving Repr, DecidableEq

/-- Modelled from the spec: the timezone conversion of the external
datetime crate, embedded at its interface as a map from a Unix timestamp
to civil date-time fields. -/
structure TimeZone where
  convert : Int → DateTime

/-- Modelled from the spec: the time locale's month-abbreviation data
(`locale::Time`), English by default. -/
structure TimeLocale where
  monthsAbbr : List String
  deriving Repr, DecidableEq

def TimeLocale.english : TimeLocale :=
  { monthsAbbr := ["Jan", "Feb", "Mar", "Apr", "May", "Jun",
                   "Jul", "Aug", "Sep", "Oct", "Nov", "Dec"] }

def monthAbbr (loc : TimeLocale) (m : Nat) : String :=
  loc.monthsAbbr.getD (m - 1) ""

/-- Right-align in width 2 with a space, the `{2>:D}` / `{2>:h}` field. -/
def pad2space (n : Nat) : String :=
  if n < 10 then " " ++ toString n else toString n

/-- Zero-pad to width 2, the `{02>:m}` field. -/
def pad2zero (n : Nat) : String :=
  if n < 10 then "0" ++ toString n else toString n

/-- Right-align in width 5 with spaces, the `{5>:Y}` field. -/
def pad5year (y : Int) : String :=
  spacesStr (5 - (toString y).length) ++ toString y

/-- The same-year date format `{2>:D} {:M} {2>:h}:{02>:m}`. -/
def fmtSameYear (loc : TimeLocale) (d : DateTime) : String :=
  pad2space d.day ++ " " ++ monthAbbr loc d.month ++ " "
    ++ pad2space d.hour ++ ":" ++ pad2zero d.minute

/-- The other-year date format `{2>:D} {:M} {5>:Y}`. -/
def fmtOtherYear (loc : TimeLocale) (d : DateTime) : String :=
  pad2space d.day ++ " " ++ monthAbbr loc d.month ++ " " ++ pad5year d.year

/-- The caching fields of the `Table` struct that the renderers consult:
time locale, timezone, user database and the current-year snapshot. -/
structure TableEnv where
  time : TimeLocale
  tz : TimeZone
  users : MockUsers
  current_year : Int

/-- Embedding of `Table::with_options`: a fresh table has no rows, the
given columns, and caches `current_year` from the construction-time
clock reading `now` — the single snapshot every row is rendered against. -/
def Table.with_options (columns : List Column) (timeLoc : TimeLocale)
    (tz : TimeZone) (users : MockUsers) (now : DateTime) : TableEnv × Table :=
  ({ time := timeLoc, tz := tz, users := users, current_year := now.year },
   { columns := columns, rows := [] })

/-- Embedding of `Table::render_time`: convert the timestamp in the
table's timezone and pick the format by comparing the entry's year with
the table's `current_year` snapshot. -/
def render_time (env : TableEnv) (timestamp : Int) : Cell :=
  let date := env.tz.convert timestamp
  if date.year = env.current_year then Cell.paint (fmtSameYear env.time date)
  else Cell.paint (fmtOtherYear env.time date)

/-- Embedding of the `bit` closure of `render_permissions`. -/
def permBit (b : Bool) (chr : String) : String :=
  if b then chr else "-"

/-- Embedding of `Table::render_permissions`: the file-type glyph, nine
rwx characters, and the optional trailing `@`; the width is the number
of characters pushed (10 or 11). -/
def render_permissions (p : Permissions) (xattrs : Bool) : Cell :=
  let file_type : String :=
    match p.file_type with
    | .File => "."
    | .Directory => "d"
    | .Pipe => "|"
    | .Link => "l"
    | .Special => "?"
  let columns : List String :=
    [file_type,
     permBit p.user_read "r", permBit p.user_write "w", permBit p.user_execute "x",
     permBit p.group_read "r", permBit p.group_write "w", permBit p.group_execute "x",
     permBit p.other_read "r", permBit p.other_write "w", permBit p.other_execute "x"]
      ++ (if xattrs then ["@"] else [])
  { text := String.join columns, length := columns.length }

/-- Embedding of `Table::render_links` (the multi-link style dropped). -/
def render_links (links : FLinks) : Cell :=
  Cell.paint (format_int (links.count : Int))

/-- Embedding of `Table::render_blocks`. -/
def render_blocks (blocks : Option Nat) : Cell :=
  match blocks with
  | some b => Cell.paint (toString b)
  | none => Cell.paint "-"

/-- Embedding of `Table::render_inode`. -/
def render_inode (inode : Nat) : Cell :=
  Cell.paint (toString inode)

/-- Embedding of `Table::render_git_char`. -/
def render_git_char : GitStatus → String
  | .NotModified => "-"
  | .New => "N"
  | .Modified => "M"
  | .Deleted => "D"
  | .Renamed => "R"
  | .TypeChange => "T"

/-- Embedding of `Table::render_git_status`: two status characters with
fixed width 2. -/
def render_git_status (git : Git) : Cell :=
  { text := render_git_char git.staged ++ render_git_char git.unstaged,
    length := 2 }

/-- Embedding of `Table::render_user`: resolve the uid, falling back to
its numeral (the "is you" style dropped). -/
def render_user (users : MockUsers) (uid : Nat) : Cell :=
  let user_name :=
    match users.get_user_by_uid uid with
    | some u => u.name
    | none => toString uid
  Cell.paint user_name

/-- Embedding of `Table::render_group`: resolve the gid, falling back to
its numeral (the "yours" style dropped). -/
def render_group (users : MockUsers) (gid : Nat) : Cell :=
  let group_name :=
    match users.get_group_by_gid gid with
    | some g => g.name
    | none => toString gid
  Cell.paint group_name

/-- Embedding of `Table::display`: dispatch on the column kind. -/
def display (env : TableEnv) (file : File) (column : Column)
    (xattrs : Bool) : Cell :=
  match column with
  | .Permissions => render_permissions file.permissions xattrs
  | .FileSize fmt => render_size file.size fmt
  | .Timestamp t => render_time env (file.timestamp t)
  | .HardLinks => render_links file.links
  | .Inode => render_inode file.inode
  | .Blocks => render_blocks file.blocks
  | .User => render_user env.users file.user
  | .Group => render_group env.users file.group
  | .GitStatus => render_git_status file.git

/-- Embedding of `Table::cells_for_file`: one cell per column. -/
def cells_for_file (env : TableEnv) (columns : List Column) (file : File)
    (xattrs : Bool) : List Cell :=
  columns.map (fun c => display env file c xattrs)

/-- Embedding of `Table::add_header`: a depth-0 row with one header cell
per column, name cell "Name", `last` false. -/
def Table.add_header (t : Table) : Table :=
  { t with rows := t.rows ++
      [{ cells := some (t.columns.map (fun c => Cell.paint c.header)),
         name := Cell.paint "Name", depth := 0, last := false }] }

/-- A concrete timezone whose year flips at timestamp 100. -/
def c9Tz : TimeZone :=
  { convert := fun ts =>
      { year := if ts < 100 then 2016 else 2014,
        month := 6, day := 29, hour := 16, minute := 16 } }

/-- Embedding of `xattr::Attribute`: the fields the view reads. -/
structure Attribute where
  name : String
  size : Nat
  deriving Repr, DecidableEq

/-- An `io::Error`, embedded as its display text (the view only ever
formats errors into row names). -/
structure IoError where
  msg : String
  deriving Repr, DecidableEq

/-- A filesystem entry as the collector consumes it: the renderable
attributes, the result of the extended-attribute read, and the result of
opening it as a directory (`file.to_dir`), whose listing yields child
entries or per-child path-and-error pairs.  `file.is_directory()` is
`permissions.file_type = Directory` on the embedded attribute record. -/
inductive FsFile : Type where
  | mk (fmeta : File)
       (attrs : Except IoError (List Attribute))
       (toDir : Except IoError (List (Except (String × IoError) FsFile)))

def FsFile.fmeta : FsFile → File
  | .mk m _ _ => m

def FsFile.attrs : FsFile → Except IoError (List Attribute)
  | .mk _ a _ => a

def FsFile.toDir : FsFile → Except IoError (List (Except (String × IoError) FsFile))
  | .mk _ _ d => d

/-- Modelled from the spec: `options.rs` is not in the sources; recursion
options are the tree flag and the optional depth limit, with
`is_too_deep` true when the limit does not exceed the current depth. -/
structure RecurseOptions where
  tree : Bool
  max_depth : Option Nat
  deriving Repr, DecidableEq

def RecurseOptions.is_too_deep (r : RecurseOptions) (depth : Nat) : Bool :=
  match r.max_depth with
  | some d => d ≤ depth
  | none => false

/-- The `Details` options the collector reads: the recursion options, the
xattr flag, and the externally supplied file filter, split into its
comparator (`filter.compare_files`) and its predicate
(`filter.filter_files`). -/
structure Details where
  recurse : Option RecurseOptions
  xattr : Bool
  cmp : File → File → Ordering
  pred : File → Bool

/-- Embedding of the `Egg` struct of `add_files_to_table`. -/
structure Egg where
  cells : List Cell
  name : Cell
  xattrs : List Attribute
  errors : List (IoError × Option String)
  dir : Option (List (Except (String × IoError) FsFile))
  file : FsFile

/-- Embedding of the per-entry worker body of `add_files_to_table`: read
the extended attributes (kept, or recorded as a path-less error, only
when the xattr flag is on), render the cells and the name, and attempt
`to_dir` only for directories under an enabled tree recursion within the
depth limit — an `Err` from `to_dir` silently leaves `dir` as `None`. -/
def makeEgg (D : Details) (env : TableEnv) (columns : List Column)
    (depth : Nat) (file : FsFile) : Egg :=
  let ae : List Attribute × List (IoError × Option String) :=
    match file.attrs with
    | .ok xs => (if D.xattr then xs else [], [])
    | .error e => ([], if D.xattr then [(e, none)] else [])
  let cells := cells_for_file env columns file.fmeta (!ae.1.isEmpty)
  let name : Cell := { text := file.fmeta.name, length := file.fmeta.name_width }
  let dir : Option (List (Except (String × IoError) FsFile)) :=
    match D.recurse with
    | some r =>
        if (file.fmeta.permissions.file_type == FileType.Directory)
            && r.tree && !(r.is_too_deep depth) then
          match file.toDir with
          | .ok d => some d
          | .error _ => none
        else none
    | none => none
  { cells := cells, name := name, xattrs := ae.1, errors := ae.2,
    dir := dir, file := file }

/-- Embedding of Rust's stable `sort_by` on the egg buffer: Mathlib's
insertion sort by the non-strict relation `cmp a b ≠ Gt` is the stable
sort for the comparator (ties keep their input order). -/
def sort_by {α : Type} (cmp : α → α → Ordering) (l : List α) : List α :=
  List.insertionSort (fun a b => cmp a b ≠ Ordering.gt) l

/-- Embedding of `Table::add_xattr`: a cell-less row named
`"<name> (len <size>)"`. -/
def xattrRow (a : Attribute) (depth : Nat) (last : Bool) : Row :=
  { cells := none,
    name := Cell.paint (a.name ++ " (len " ++ toString a.size ++ ")"),
    depth := depth, last := last }

/-- Embedding of `Table::add_error`: a cell-less row named `"<error>"`,
or `"<path: error>"` when a path is known. -/
def errorRow (e : IoError × Option String) (depth : Nat) (last : Bool) : Row :=
  { cells := none,
    name := Cell.paint (match e.2 with
      | some path => "<" ++ path ++ ": " ++ e.1.msg ++ ">"
      | none => "<" ++ e.1.msg ++ ">"),
    depth := depth, last := last }

/-- The attribute rows of the recursing branch: all with `last = false`. -/
def attrRowsAllFalse (xs : List Attribute) (depth : Nat) : List Row :=
  xs.map (fun a => xattrRow a depth false)

/-- The error rows of the recursing branch: all with `last = false`. -/
def errorRowsAllFalse (errs : List (IoError × Option String))
    (depth : Nat) : List Row :=
  errs.map (fun e => errorRow e depth false)

/-- The non-recursing branch of the per-egg loop: attribute rows (last
exactly when no errors follow and it is the final attribute) then error
rows (last exactly on the final error). -/
def combinedRows (xs : List Attribute) (errs : List (IoError × Option String))
    (depth : Nat) : List Row :=
  (xs.enum.map (fun ia =>
      xattrRow ia.2 depth (errs.isEmpty && ia.1 == xs.length - 1)))
    ++ (errs.enum.map (fun ie2 => errorRow ie2.2 depth (ie2.1 == errs.length - 1)))

/-- The `Ok` children of an opened directory listing, in listing order. -/
def okChildren (children : List (Except (String × IoError) FsFile)) : List FsFile :=
  children.filterMap (fun c => match c with | .ok f => some f | .error _ => none)

/-- The per-child failures of an opened directory listing, as
path-qualified errors, in listing order. -/
def childErrors (children : List (Except (String × IoError) FsFile)) :
    List (IoError × Option String) :=
  children.filterMap
    (fun c => match c with | .ok _ => none | .error pe => some (pe.2, some pe.1))

/-- Embedding of `FileFilter::filter_files`: the externally supplied
predicate applied to the freshly listed children. -/
def filter_files (D : Details) (files : List FsFile) : List FsFile :=
  files.filter (fun f => D.pred f.fmeta)

/-- The body of the per-egg loop of `add_files_to_table`: push the file
row; a produced directory has its `Ok` children collected and filtered
and its per-child failures appended to the entry's errors — when children
remain, the entry's attribute and error rows are pushed with `last`
false, followed by the recursive rows; otherwise (and for entries with
no produced directory) the attribute-then-error group is pushed with the
combined last flags.  The recursion is abstracted as `recurse`. -/
def eggSegment (recurse : List FsFile → List Row) (D : Details)
    (depth : Nat) (egg : Egg) (isLast : Bool) : List Row :=
  let row : Row :=
    { cells := some egg.cells, name := egg.name, depth := depth, last := isLast }
  match egg.dir with
  | some children =>
      let errors := egg.errors ++ childErrors children
      let files := filter_files D (okChildren children)
      if files.isEmpty then
        row :: combinedRows egg.xattrs errors (depth + 1)
      else
        row :: (attrRowsAllFalse egg.xattrs (depth + 1)
          ++ errorRowsAllFalse errors (depth + 1)
          ++ recurse files)
  | none => row :: combinedRows egg.xattrs egg.errors (depth + 1)

/-- The driver loop over a completed, unsorted egg buffer: sort by the
caller-supplied comparator on the entry, then emit each egg's segment,
`last` set on the final sorted position. -/
def processEggs (recurse : List FsFile → List Row) (D : Details)
    (depth : Nat) (eggs : List Egg) : List Row :=
  let sorted := sort_by (fun a b => D.cmp a.file.fmeta b.file.fmeta) eggs
  let num_eggs := sorted.length
  (sorted.enum.map
    (fun ie => eggSegment recurse D depth ie.2 (ie.1 == num_eggs - 1))).join

/-- Embedding of `Details::add_files_to_table`: build one egg per entry
(the parallel fan-out; the buffer order is the workers' completion order,
taken here as the source order — see the C2 theorems for arbitrary
completion orders), then sort and append.  `fuel` bounds the recursion
depth; the filesystem argument of any actual run is finite, so every run
is reproduced by every sufficiently large fuel. -/
def add_files_to_table (fuel : Nat) (D : Details) (env : TableEnv)
    (columns : List Column) (src : List FsFile) (depth : Nat) : List Row :=
  match fuel with
  | 0 => []
  | Nat.succ fuel =>
      processEggs
        (fun files => add_files_to_table fuel D env columns files (depth + 1))
        D depth (src.map (makeEgg D env columns depth))

/-- The non-strict order a comparator induces (`cmp a b ≠ Gt`), the
relation Rust's `sort_by` sorts by. -/
def leCmp {α : Type} (cmp : α → α → Ordering) (a b : α) : Prop :=
  cmp a b ≠ Ordering.gt

instance {α : Type} (cmp : α → α → Ordering) : DecidableRel (leCmp cmp) :=
  fun a b => by unfold leCmp; infer_instance

/-- The contract of a total-order comparator (the spec: "Sort comparator:
total order over two entries, supplied externally"). -/
structure LawfulCmp {α : Type} (cmp : α → α → Ordering) : Prop where
  trans : ∀ a b c, leCmp cmp a b → leCmp cmp b c → leCmp cmp a c
  lt_iff_gt : ∀ a b, cmp a b = Ordering.lt ↔ cmp b a = Ordering.gt
  eq_symm : ∀ a b, cmp a b = Ordering.eq → cmp b a = Ordering.eq

/-- Default renderer environment for concrete instances. -/
def envDefault : TableEnv :=
  { time := TimeLocale.english,
    tz := { convert := fun _ => { year := 2016, month := 1, day := 1, hour := 0, minute := 0 } },
    users := { current_uid := 0, users := [], groups := [] },
    current_year := 2016 }

/-- Default permissions for concrete instances. -/
def permsDefault : Permissions :=
  { file_type := FileType.File,
    user_read := true, user_write := true, user_execute := false,
    group_read := true, group_write := false, group_execute := false,
    other_read := true, other_write := false, other_execute := false }

/-- A concrete file record with a chosen name and inode. -/
def mkFileMeta (nm : String) (ino : Nat) : File :=
  { name := nm, name_width := nm.length, permissions := permsDefault,
    size := some 0, modified := 0, accessed := 0, created := 0,
    links := { count := 1, multiple := false }, inode := ino,
    blocks := none, user := 0, group := 0,
    git := { staged := GitStatus.NotModified, unstaged := GitStatus.NotModified } }

/-- A concrete non-directory entry. -/
def mkPlainFs (nm : String) (ino : Nat) : FsFile :=
  FsFile.mk (mkFileMeta nm ino) (Except.ok []) (Except.error { msg := "not a dir" })

/-- A `Details` value whose comparator ties every pair of entries. -/
def cexTieDetails : Details :=
  { recurse := none, xattr := false,
    cmp := fun _ _ => Ordering.eq, pred := fun _ => true }

/-- A comparator ordering entries by inode. -/
def cmpByInode : File → File → Ordering :=
  fun f g => compare f.inode g.inode

/-- A `Details` value sorting by inode. -/
def inodeDetails : Details :=
  { recurse := none, xattr := false, cmp := cmpByInode, pred := fun _ => true }

/-- An entry with one attribute and one error and no produced directory. -/
def c4Egg : Egg :=
  { cells := [], name := Cell.paint "f",
    xattrs := [{ name := "tag", size := 3 }],
    errors := [({ msg := "eperm" }, none)],
    dir := none, file := mkPlainFs "f" 7 }

/-- A `Details` value with extended-attribute display enabled. -/
def xattrDetails : Details :=
  { recurse := none, xattr := true, cmp := cmpByInode, pred := fun _ => true }

/-- Well-formedness of a row's cells against a column count: the data
model's invariant "if cells is present its length equals the Column
count". -/
def cellsWf (k : Nat) : Option (List Cell) → Prop
  | some cs => cs.length = k
  | none => True

instance (k : Nat) : (o : Option (List Cell)) → Decidable (cellsWf k o)
  | some _ => Nat.decEq _ _
  | none => Decidable.isTrue trivial

abbrev Row.wfCells (r : Row) (k : Nat) : Prop := cellsWf k r.cells

theorem printStep_fst (columns : List Column) (widths : List Nat) (total : Nat)
    (rows : List Row) (st : Table × List TreePart × List Cell) :
    (rows.foldl (printStep columns widths total) st).1 = st.1 := by
  induction rows generalizing st with
  | nil => rfl
  | cons r rs ih => exact ih _

theorem printStep_out (columns : List Column) (widths : List Nat) (total : Nat)
    (rows : List Row) (tbl : Table) (stack : List TreePart) (acc : List Cell) :
    (rows.foldl (printStep columns widths total) (tbl, stack, acc)).2.2
      = acc ++ printLines columns widths total stack rows := by
  induction rows generalizing stack acc with
  | nil => simp [printLines]
  | cons r rs ih => simp [printStep, printLines, ih, List.append_assoc]

theorem print_table_eq_printLines (t : Table) :
    t.print_table
      = printLines t.columns t.column_widths t.total_width [] t.rows := by
  simpa [Table.print_table, Table.print_run] using
    printStep_out t.columns t.column_widths t.total_width t.rows t [] []

theorem printLines_append (columns : List Column) (widths : List Nat)
    (total : Nat) (stack : List TreePart) (l1 l2 : List Row) :
    printLines columns widths total stack (l1 ++ l2)
      = printLines columns widths total stack l1
          ++ printLines columns widths total (l1.foldl stackAfter stack) l2 := by
  induction l1 generalizing stack with
  | nil => rfl
  | cons r rs ih => simp [printLines, ih]

theorem resizeStack_length (s : List TreePart) (n : Nat) :
    (resizeStack s n).length = n := by
  unfold resizeStack
  split
  · simpa using Nat.min_eq_left (by assumption)
  · simp; omega

theorem stackAtEmit_length (s : List TreePart) (r : Row) :
    (stackAtEmit s r).length = r.depth + 1 := by
  simp [stackAtEmit, resizeStack_length]

theorem stackAfter_length (s : List TreePart) (r : Row) :
    (stackAfter s r).length = r.depth + 1 := by
  simp [stackAfter, stackAtEmit_length]

theorem resizeStack_get?_lt (s : List TreePart) (n d : Nat)
    (hd : d < n) (hs : d < s.length) :
    (resizeStack s n).get? d = s.get? d := by
  unfold resizeStack
  split
  · exact List.get?_take hd
  · exact List.get?_append hs

/-- Processing a strictly deeper row leaves a demoted stack entry alone:
the resize keeps index `d`, and both `set`s touch only the deeper index. -/
theorem stackAfter_get?_of_lt_depth (s : List TreePart) (m : Row) (d : Nat)
    (hdepth : d < m.depth) (hs : d < s.length) :
    (stackAfter s m).get? d = s.get? d := by
  unfold stackAfter stackAtEmit
  rw [List.set_set, List.get?_set_ne _ _ (by omega),
    resizeStack_get?_lt s (m.depth + 1) d (by omega) hs]

theorem stackAtEmit_get?_of_lt_depth (s : List TreePart) (m : Row) (d : Nat)
    (hdepth : d < m.depth) (hs : d < s.length) :
    (stackAtEmit s m).get? d = s.get? d := by
  unfold stackAtEmit
  rw [List.get?_set_ne _ _ (by omega),
    resizeStack_get?_lt s (m.depth + 1) d (by omega) hs]

/-- After a last row at depth `d` is processed, the stack holds `Blank`
at index `d` (the demotion step of the source). -/
theorem stackAfter_last_blank (s : List TreePart) (r : Row)
    (hlast : r.last = true) :
    (stackAfter s r).get? r.depth = some TreePart.Blank := by
  unfold stackAfter
  rw [hlast]
  rw [List.get?_set_eq_of_lt _ (by rw [stackAtEmit_length]; omega)]
  simp

/-- The `Blank` at index `d` survives any run of strictly deeper rows. -/
theorem blank_survives_deeper (mid : List Row) (d : Nat)
    (hmid : ∀ m ∈ mid, d < m.depth) (s : List TreePart)
    (hblank : s.get? d = some TreePart.Blank) :
    (mid.foldl stackAfter s).get? d = some TreePart.Blank := by
  induction mid generalizing s with
  | nil => exact hblank
  | cons m ms ih =>
      have hs : d < s.length := by
        by_contra h
        rw [List.get?_eq_none.mpr (by omega)] at hblank
        cases hblank
      simp only [List.foldl_cons]
      exact ih (fun x hx => hmid x (List.mem_cons_of_mem _ hx))
        (stackAfter s m)
        (by rw [stackAfter_get?_of_lt_depth s m d (hmid m (List.mem_cons_self _ _)) hs]; exact hblank)

theorem get?_some_lt {α : Type} {l : List α} {d : Nat} {x : α}
    (h : l.get? d = some x) : d < l.length := by
  by_contra hc
  rw [List.get?_eq_none.mpr (by omega)] at h
  cases h

theorem printLines_length (columns : List Column) (widths : List Nat)
    (total : Nat) (stack : List TreePart) (rows : List Row) :
    (printLines columns widths total stack rows).length = rows.length := by
  induction rows generalizing stack with
  | nil => rfl
  | cons r rs ih => simp [printLines, ih]

/-- C5: for every row sequence rendered by `print_table`, a row with
`last = true` at depth `d ≥ 1` forces every strictly deeper row that
follows it — before the next row at depth `d` or shallower — to show the
`Blank` glyph, not the `Line` glyph, at position `d` of its tree prefix
(the prefix lists positions `1, ..., depth`, so position `d` is entry
`d - 1`). -/
theorem c5_blank_under_last_row (t : Table) (pre mid post : List Row)
    (r r2 : Row) (hrows : t.rows = pre ++ r :: mid ++ r2 :: post)
    (hlast : r.last = true) (hd : 1 ≤ r.depth)
    (hmid : ∀ m ∈ mid, r.depth < m.depth) (hr2 : r.depth < r2.depth) :
    t.print_table.get? (pre ++ r :: mid).length
      = some (rowLine t.columns t.column_widths t.total_width
          (stackAfterRows (pre ++ r :: mid)) r2)
    ∧ (emittedParts (stackAfterRows (pre ++ r :: mid)) r2).get? (r.depth - 1)
      = some TreePart.Blank
    ∧ TreePart.Blank ≠ TreePart.Line := by
  have hS : (stackAfterRows (pre ++ r :: mid)).get? r.depth
      = some TreePart.Blank := by
    unfold stackAfterRows
    rw [List.foldl_append, List.foldl_cons]
    exact blank_survives_deeper mid r.depth hmid _
      (stackAfter_last_blank _ r hlast)
  refine ⟨?_, ?_, by decide⟩
  · rw [print_table_eq_printLines, hrows,
      show pre ++ r :: mid ++ r2 :: post = (pre ++ r :: mid) ++ r2 :: post by simp,
      printLines_append,
      List.get?_append_right (by rw [printLines_length]),
      show stackAfterRows (pre ++ r :: mid) = (pre ++ r :: mid).foldl stackAfter [] from rfl,
      printLines_length]
    simp [printLines]
  · unfold emittedParts
    rw [List.get?_map, List.get?_range (by omega)]
    have hget : (stackAtEmit (stackAfterRows (pre ++ r :: mid)) r2).get? r.depth
        = some TreePart.Blank := by
      rw [stackAtEmit_get?_of_lt_depth _ r2 r.depth hr2 (get?_some_lt hS)]
      exact hS
    have : r.depth - 1 + 1 = r.depth := by omega
    simp only [Option.map_some', this]
    rw [show (stackAtEmit (stackAfterRows (pre ++ r :: mid)) r2).getD r.depth TreePart.Edge
        = ((stackAtEmit (stackAfterRows (pre ++ r :: mid)) r2).get? r.depth).getD TreePart.Edge
      from rfl, hget]
    rfl

/-- Witness for C5 at a concrete table: a last row at depth 1 followed by
a row at depth 2; the deeper row's prefix shows `Blank` at position 1. -/
theorem c5_blank_under_last_row_witness :
    (Table.mk [] [mkRowD 1 true, mkRowD 2 false]).print_table.get? 1
      = some (rowLine [] (Table.mk [] [mkRowD 1 true, mkRowD 2 false]).column_widths
          (Table.mk [] [mkRowD 1 true, mkRowD 2 false]).total_width
          (stackAfterRows [mkRowD 1 true]) (mkRowD 2 false))
    ∧ (emittedParts (stackAfterRows [mkRowD 1 true]) (mkRowD 2 false)).get? 0
      = some TreePart.Blank
    ∧ TreePart.Blank ≠ TreePart.Line := by
  have h := c5_blank_under_last_row (Table.mk [] [mkRowD 1 true, mkRowD 2 false])
    [] [] [] (mkRowD 1 true) (mkRowD 2 false) rfl rfl (by decide)
    (by intro m hm; cases hm) (by decide)
  simpa using h

/-- C6 counterexample: the branch stack does shrink.  Processing a row at
depth 1 leaves a stack of length 2; a following row at depth 0 makes
`stack.resize(0 + 1, Edge)` truncate it to length 1, although the maximum
depth seen so far is 1 (so the claimed length would be 2).  The claim's
"the stack is ... never shrunk" and "length equals the maximum depth seen
so far plus 1" both fail on this two-row sequence. -/
theorem c6_counterexample :
    (stackAfterRows [mkRowD 1 false]).length = 2
    ∧ (stackAfterRows [mkRowD 1 false, mkRowD 0 false]).length = 1
    ∧ (mkRowD 1 false).depth + 1 = 2 := by
  decide

/-- C6 amended: after each row is processed the stack's length is exactly
that row's `depth + 1`: `Vec::resize` extends the stack with `Edge` when
`depth + 1` exceeds the current length and truncates it when `depth + 1`
is smaller; entries beyond the current row's depth therefore no longer
exist after the resize, and the only entries read (indices `1, ..., depth`
of `stackAtEmit`) all lie within the resized stack. -/
theorem c6_amended_stack_length (s : List TreePart) (r : Row) :
    (stackAfter s r).length = r.depth + 1
    ∧ (stackAtEmit s r).length = r.depth + 1
    ∧ (s.length ≤ r.depth →
        resizeStack s (r.depth + 1)
          = s ++ List.replicate (r.depth + 1 - s.length) TreePart.Edge)
    ∧ (r.depth + 1 ≤ s.length →
        resizeStack s (r.depth + 1) = s.take (r.depth + 1))
    ∧ (emittedParts s r).length = r.depth := by
  refine ⟨stackAfter_length s r, stackAtEmit_length s r, ?_, ?_, by simp [emittedParts]⟩
  · intro h
    unfold resizeStack
    rw [if_neg (by omega)]
  · intro h
    unfold resizeStack
    rw [if_pos h]

/-- Witness for C6's amended statement on a concrete stack and rows that
exercise both the extension and the truncation branch. -/
theorem c6_amended_stack_length_witness :
    resizeStack [TreePart.Line] (2 + 1)
      = [TreePart.Line] ++ List.replicate 2 TreePart.Edge
    ∧ resizeStack [TreePart.Line, TreePart.Blank, TreePart.Line] (0 + 1)
      = [TreePart.Line, TreePart.Blank, TreePart.Line].take 1 := by
  exact ⟨(c6_amended_stack_length [TreePart.Line] (mkRowD 2 false)).2.2.1 (by decide),
    (c6_amended_stack_length [TreePart.Line, TreePart.Blank, TreePart.Line]
      (mkRowD 0 false)).2.2.2.1 (by decide)⟩

/-- C8: the printing pass neither mutates the table (it threads `self`
unchanged through every row step) nor depends on anything but the table,
so running it twice on a fixed table yields identical line sequences. -/
theorem c8_print_pure_idempotent (t : Table) :
    t.print_run.1 = t ∧ t.print_run.2 = t.print_run.1.print_run.2 := by
  have h1 : t.print_run.1 = t := by
    simpa [Table.print_run] using
      printStep_fst t.columns t.column_widths t.total_width t.rows (t, [], [])
  exact ⟨h1, by rw [h1]⟩

theorem Cell.add_spaces_eq_append (c : Cell) (n : Nat) :
    c.add_spaces n = c.append (spacesCell n) := rfl

theorem Cell.append_assoc (a b c : Cell) :
    (a.append b).append c = a.append (b.append c) := by
  simp [Cell.append, String.append_assoc, Nat.add_assoc]

theorem Cell.empty_append (c : Cell) : Cell.empty.append c = c := by
  simp [Cell.append, Cell.empty]

theorem joinCells_foldl (l : List Cell) (acc : Cell) :
    l.foldl Cell.append acc = acc.append (joinCells l) := by
  induction l generalizing acc with
  | nil => simp [joinCells, Cell.append, Cell.empty]
  | cons c cl ih =>
      simp only [joinCells, List.foldl_cons]
      rw [ih, ih (Cell.empty.append c), Cell.empty_append, Cell.append_assoc]

theorem foldl_append_cells {α : Type} (f : α → Cell) (l : List α) (acc : Cell) :
    l.foldl (fun c x => c.append (f x)) acc = acc.append (joinCells (l.map f)) := by
  induction l generalizing acc with
  | nil => simp [joinCells, Cell.append, Cell.empty]
  | cons x xs ih =>
      simp only [List.foldl_cons, List.map_cons, joinCells]
      rw [ih, joinCells_foldl, Cell.empty_append, ← Cell.append_assoc]

/-- The cell region of a row with cells is the concatenation of the
per-column pieces (padded cell plus separator space). -/
theorem renderCellsRegion_eq_joinCells (columns : List Column)
    (widths : List Nat) (total : Nat) (r : Row) (cs : List Cell)
    (hcs : r.cells = some cs) :
    renderCellsRegion columns widths total r
      = joinCells (widths.enum.map (colPiece columns cs)) := by
  unfold renderCellsRegion
  rw [hcs]
  dsimp only
  have hstep : ∀ (cell : Cell) (nw : Nat × Nat),
      (let c := (cs.get? nw.1).getD Cell.empty
       let cell2 :=
         match (((columns.get? nw.1).map Column.alignment).getD ColAlignment.Left) with
         | .Left => (cell.append c).add_spaces (nw.2 - c.length)
         | .Right => (cell.add_spaces (nw.2 - c.length)).append c
       cell2.add_spaces 1)
      = cell.append (colPiece columns cs nw) := by
    intro cell nw
    simp only [colPiece, padPiece]
    cases (((columns.get? nw.1).map Column.alignment).getD ColAlignment.Left) with
    | Left => simp only [Cell.add_spaces_eq_append, Cell.append_assoc]
    | Right => simp only [Cell.add_spaces_eq_append, Cell.append_assoc]
  rw [List.foldl_ext _ _ Cell.empty (fun a x _ => hstep a x), foldl_append_cells,
    Cell.empty_append]

theorem le_maxOr0 {l : List Nat} {x : Nat} (hx : x ∈ l) : x ≤ maxOr0 l := by
  induction l with
  | nil => cases hx
  | cons y ys ih =>
      rcases List.mem_cons.mp hx with h | h
      · subst h; exact Nat.le_max_left _ _
      · exact Nat.le_trans (ih h) (Nat.le_max_right _ _)

/-- The width the source computes per column (0 for cell-less rows, then
max over all rows) equals the spec's maximum over the rows with cells. -/
theorem maxOr0_column_width_eq_spec (rows : List Row) (n : Nat) :
    maxOr0 (rows.map (fun r => r.column_width n)) = specColumnWidth rows n := by
  induction rows with
  | nil => rfl
  | cons r rs ih =>
      cases hc : r.cells with
      | none =>
          simp only [List.map_cons, specColumnWidth, List.filterMap_cons, hc]
          show max (r.column_width n) (maxOr0 (rs.map (fun r => r.column_width n)))
            = specColumnWidth rs n
          rw [ih, Row.column_width, hc]
          exact Nat.zero_max _
      | some cs =>
          simp only [List.map_cons, specColumnWidth, List.filterMap_cons, hc, List.map_cons]
          show max (r.column_width n) (maxOr0 (rs.map (fun r => r.column_width n)))
            = max (((cs.get? n).map Cell.length).getD 0)
                (maxOr0 ((rs.filterMap Row.cells).map
                  (fun cs => ((cs.get? n).map Cell.length).getD 0)))
          rw [ih, Row.column_width, hc]
          rfl

theorem column_widths_get? (t : Table) (n : Nat) (hn : n < t.columns.length) :
    t.column_widths.get? n = some (specColumnWidth t.rows n) := by
  unfold Table.column_widths
  rw [List.get?_map, List.get?_range hn, Option.map_some', maxOr0_column_width_eq_spec]

/-- Any cell of any row is no wider than the spec's column width. -/
theorem cell_width_le_spec {rows : List Row} {r : Row} (hr : r ∈ rows)
    {cs : List Cell} (hcs : r.cells = some cs) (n : Nat) :
    ((cs.get? n).map Cell.length).getD 0 ≤ specColumnWidth rows n := by
  rw [← maxOr0_column_width_eq_spec]
  have hmem : ((cs.get? n).map Cell.length).getD 0
      ∈ rows.map (fun r => r.column_width n) := by
    have : r.column_width n = ((cs.get? n).map Cell.length).getD 0 := by
      rw [Row.column_width, hcs]
    exact this ▸ List.mem_map_of_mem _ hr
  exact le_maxOr0 hmem

theorem padPiece_length (a : ColAlignment) (w : Nat) (c : Cell)
    (hc : c.length ≤ w) : (padPiece a w c).length = w := by
  cases a with
  | Left => simp only [padPiece, Cell.add_spaces]; omega
  | Right => simp only [padPiece, Cell.append, spacesCell]; omega

theorem colPiece_length (columns : List Column) (cs : List Cell)
    (nw : Nat × Nat) (hc : (((cs.get? nw.1).getD Cell.empty)).length ≤ nw.2) :
    (colPiece columns cs nw).length = nw.2 + 1 := by
  simp only [colPiece, Cell.add_spaces]
  rw [padPiece_length _ _ _ hc]

/-- C1: `print_table` computes each column's width as the maximum cell
width of that column over the rows that have cells (cell-less rows
contribute 0, hence nothing, to the maximum), and the printed cell region
of every row with cells is the concatenation, per column, of that row's
cell padded per the column's alignment to exactly the computed width,
followed by one space (each piece has width `column width + 1`). -/
theorem c1_column_width_is_max_and_padding_exact (t : Table) :
    (∀ n, n < t.columns.length →
      t.column_widths.get? n = some (specColumnWidth t.rows n))
    ∧ (∀ r ∈ t.rows, ∀ cs, r.cells = some cs →
        renderCellsRegion t.columns t.column_widths t.total_width r
          = joinCells (t.column_widths.enum.map (colPiece t.columns cs))
        ∧ ∀ nw ∈ t.column_widths.enum,
            (colPiece t.columns cs nw).length = nw.2 + 1) := by
  refine ⟨fun n hn => column_widths_get? t n hn, fun r hr cs hcs => ⟨?_, ?_⟩⟩
  · exact renderCellsRegion_eq_joinCells t.columns t.column_widths t.total_width r cs hcs
  · intro nw hnw
    have hget : t.column_widths.get? nw.1 = some nw.2 :=
      List.mem_enum_iff_get?.mp hnw
    have hn1 : nw.1 < t.columns.length := by
      have := get?_some_lt hget
      simpa [Table.column_widths] using this
    have hw : nw.2 = specColumnWidth t.rows nw.1 := by
      rw [column_widths_get? t nw.1 hn1] at hget
      exact (Option.some.inj hget).symm
    apply colPiece_length
    rw [hw]
    cases hc : cs.get? nw.1 with
    | none => simp [Option.getD, Cell.empty]
    | some c =>
        have := cell_width_le_spec hr hcs nw.1
        rw [hc] at this
        simpa using this

/-- Witness for C1 on `c1Table`: column 0 has width 2, column 1 width 3,
and the pieces of the first row have widths 3 and 4. -/
theorem c1_column_width_is_max_and_padding_exact_witness :
    c1Table.column_widths.get? 0 = some (specColumnWidth c1Table.rows 0)
    ∧ specColumnWidth c1Table.rows 0 = 2
    ∧ renderCellsRegion c1Table.columns c1Table.column_widths
        c1Table.total_width (c1Table.rows.get ⟨0, by decide⟩)
        = joinCells (c1Table.column_widths.enum.map
            (colPiece c1Table.columns [Cell.paint "ab", Cell.paint "1"]))
    ∧ (colPiece c1Table.columns [Cell.paint "ab", Cell.paint "1"] (0, 2)).length = 2 + 1 := by
  have h := c1_column_width_is_max_and_padding_exact c1Table
  have h2 := h.2 (c1Table.rows.get ⟨0, by decide⟩) (List.get_mem _ _ _)
    [Cell.paint "ab", Cell.paint "1"] (by decide)
  refine ⟨h.1 0 (by decide), by decide, h2.1, ?_⟩
  have := h2.2 (0, 2) (by decide)
  simpa using this

/-- C3 counterexample: byte count 5 under the binary policy.  The scaled
value (5, in the byte unit) is under 10, yet the renderer takes the
`Standalone` path and prints the plain integer "5" (width 1) with no
decimal place and no suffix — against the claim's "for a present size
under a suffixed (decimal or binary) policy, a scaled value rendered with
one decimal place when the scaled value is under 10". -/
theorem c3_counterexample_small_size_integer :
    render_size (some 5) SizeFormat.BinaryBytes = { text := "5", length := 1 } := by
  decide

/-- A present size below the binary base takes the `Standalone` path:
the plain integer, no suffix. -/
theorem render_size_below_binary (offset : Nat) (h : offset < 1024) :
    render_size (some offset) SizeFormat.BinaryBytes
      = Cell.paint (toString ((offset : ℚ))) := by
  unfold render_size
  dsimp only
  unfold number_prefix_binary
  rw [if_pos (by exact_mod_cast h)]
  rfl

/-- A present size below the decimal base takes the `Standalone` path. -/
theorem render_size_below_decimal (offset : Nat) (h : offset < 1000) :
    render_size (some offset) SizeFormat.DecimalBytes
      = Cell.paint (toString ((offset : ℚ))) := by
  unfold render_size
  dsimp only
  unfold number_prefix_decimal
  rw [if_pos (by exact_mod_cast h)]
  rfl

/-- The scaling loop, characterised for any base and symbol list: it
lands on the first scaling step whose amount drops below the base (or on
the final symbol), returning that symbol and the amount divided by the
base once per step taken, every skipped step having amount at least the
base. -/
theorem scaleAmount_spec (base : ℚ) :
    ∀ (syms : List String) (amt : ℚ), syms ≠ [] →
      ∃ k sym, syms.get? k = some sym
        ∧ scaleAmount base amt syms = SizeResult.Prefixed sym (amt / base ^ k)
        ∧ (amt / base ^ k < base ∨ k = syms.length - 1)
        ∧ (∀ j, j < k → base ≤ amt / base ^ j)
  | [], _, h => absurd rfl h
  | [s], amt, _ =>
      ⟨0, s, rfl, by simp [scaleAmount], Or.inr rfl,
        fun j hj => absurd hj (by omega)⟩
  | s :: s2 :: rest, amt, _ => by
      by_cases hlt : amt < base
      · exact ⟨0, s, rfl, by simp [scaleAmount, hlt],
          Or.inl (by simpa using hlt), fun j hj => absurd hj (by omega)⟩
      · obtain ⟨k, sym, hget, heq, hdisj, hmono⟩ :=
          scaleAmount_spec base (s2 :: rest) (amt / base) (by simp)
        have hdd : amt / base / base ^ k = amt / base ^ (k + 1) := by
          rw [div_div, ← pow_succ']
        refine ⟨k + 1, sym, hget, ?_, ?_, ?_⟩
        · rw [show scaleAmount base amt (s :: s2 :: rest)
              = scaleAmount base (amt / base) (s2 :: rest) from by
            simp [scaleAmount, hlt], heq, hdd]
        · rcases hdisj with h | h
          · left
            rwa [hdd] at h
          · right
            simp only [List.length_cons] at h ⊢
            omega
        · intro j hj
          cases j with
          | zero => simpa using not_lt.mp hlt
          | succ j2 =>
              have := hmono j2 (by omega)
              rwa [div_div, ← pow_succ'] at this

/-- Any present size at or above the binary base renders as a scaled
value with a unit symbol: the value divided by 1024 once per scaling
step, printed with one decimal place when under 10 and as a truncated
integer otherwise, the width being numeral length plus symbol length. -/
theorem render_size_scaled_binary (offset : Nat) (h : 1024 ≤ offset) :
    ∃ k sym,
      (["Ki", "Mi", "Gi", "Ti", "Pi", "Ei", "Zi", "Yi"] : List String).get? k
          = some sym
      ∧ (1024 : ℚ) ^ (k + 1) ≤ (offset : ℚ)
      ∧ ((offset : ℚ) / 1024 ^ (k + 1) < 1024 ∨ k = 7)
      ∧ render_size (some offset) SizeFormat.BinaryBytes
          = { text := scaledNumber ((offset : ℚ) / 1024 ^ (k + 1)) ++ sym,
              length := (scaledNumber ((offset : ℚ) / 1024 ^ (k + 1))).length
                + sym.length } := by
  have hx : (1024 : ℚ) ≤ (offset : ℚ) := by exact_mod_cast h
  obtain ⟨k, sym, hget, heq, hdisj, hmono⟩ :=
    scaleAmount_spec 1024 ["Ki", "Mi", "Gi", "Ti", "Pi", "Ei", "Zi", "Yi"]
      ((offset : ℚ) / 1024) (by simp)
  have hdd : (offset : ℚ) / 1024 / 1024 ^ k = (offset : ℚ) / 1024 ^ (k + 1) := by
    rw [div_div, ← pow_succ']
  refine ⟨k, sym, hget, ?_, ?_, ?_⟩
  · cases k with
    | zero => simpa using hx
    | succ j =>
        have hj := hmono j (by omega)
        rw [div_div, ← pow_succ'] at hj
        have hmul := (le_div_iff₀ (by positivity)).mp hj
        calc (1024 : ℚ) ^ (j + 1 + 1) = 1024 * 1024 ^ (j + 1) := by
              rw [pow_succ']
          _ ≤ (offset : ℚ) := hmul
  · rcases hdisj with h2 | h2
    · left
      rwa [hdd] at h2
    · right
      simpa using h2
  · unfold render_size
    dsimp only
    unfold number_prefix_binary
    rw [if_neg (not_lt.mpr hx), heq, hdd]
    rfl

/-- Any present size at or above the decimal base renders as a scaled
value with a unit symbol, under the same under-10-one-decimal rule and
width accounting. -/
theorem render_size_scaled_decimal (offset : Nat) (h : 1000 ≤ offset) :
    ∃ k sym,
      (["k", "M", "G", "T", "P", "E", "Z", "Y"] : List String).get? k = some sym
      ∧ (1000 : ℚ) ^ (k + 1) ≤ (offset : ℚ)
      ∧ ((offset : ℚ) / 1000 ^ (k + 1) < 1000 ∨ k = 7)
      ∧ render_size (some offset) SizeFormat.DecimalBytes
          = { text := scaledNumber ((offset : ℚ) / 1000 ^ (k + 1)) ++ sym,
              length := (scaledNumber ((offset : ℚ) / 1000 ^ (k + 1))).length
                + sym.length } := by
  have hx : (1000 : ℚ) ≤ (offset : ℚ) := by exact_mod_cast h
  obtain ⟨k, sym, hget, heq, hdisj, hmono⟩ :=
    scaleAmount_spec 1000 ["k", "M", "G", "T", "P", "E", "Z", "Y"]
      ((offset : ℚ) / 1000) (by simp)
  have hdd : (offset : ℚ) / 1000 / 1000 ^ k = (offset : ℚ) / 1000 ^ (k + 1) := by
    rw [div_div, ← pow_succ']
  refine ⟨k, sym, hget, ?_, ?_, ?_⟩
  · cases k with
    | zero => simpa using hx
    | succ j =>
        have hj := hmono j (by omega)
        rw [div_div, ← pow_succ'] at hj
        have hmul := (le_div_iff₀ (by positivity)).mp hj
        calc (1000 : ℚ) ^ (j + 1 + 1) = 1000 * 1000 ^ (j + 1) := by
              rw [pow_succ']
          _ ≤ (offset : ℚ) := hmul
  · rcases hdisj with h2 | h2
    · left
      rwa [hdd] at h2
    · right
      simpa using h2
  · unfold render_size
    dsimp only
    unfold number_prefix_decimal
    rw [if_neg (not_lt.mpr hx), heq, hdd]
    rfl

/-- A present size in `[1024, 1024^2)` scales exactly once, to the `Ki`
unit. -/
theorem render_size_ki (offset : Nat) (h1 : 1024 ≤ offset)
    (h2 : offset < 1048576) :
    render_size (some offset) SizeFormat.BinaryBytes
      = renderSizeResult (SizeResult.Prefixed "Ki" ((offset : ℚ) / 1024)) := by
  unfold render_size
  dsimp only
  unfold number_prefix_binary
  rw [if_neg (not_lt.mpr (by exact_mod_cast h1))]
  show renderSizeResult
    (scaleAmount 1024 ((offset : ℚ) / 1024)
      ("Ki" :: "Mi" :: ["Gi", "Ti", "Pi", "Ei", "Zi", "Yi"])) = _
  unfold scaleAmount
  rw [if_pos (by
    have hq : (offset : ℚ) < 1048576 := by exact_mod_cast h2
    rw [div_lt_iff (by norm_num : (0:ℚ) < 1024)]
    norm_num
    linarith)]

/-- A present size in `[1000, 1000^2)` scales exactly once, to the `k`
unit. -/
theorem render_size_k_decimal (offset : Nat) (h1 : 1000 ≤ offset)
    (h2 : offset < 1000000) :
    render_size (some offset) SizeFormat.DecimalBytes
      = renderSizeResult (SizeResult.Prefixed "k" ((offset : ℚ) / 1000)) := by
  unfold render_size
  dsimp only
  unfold number_prefix_decimal
  rw [if_neg (not_lt.mpr (by exact_mod_cast h1))]
  show renderSizeResult
    (scaleAmount 1000 ((offset : ℚ) / 1000)
      ("k" :: "M" :: ["G", "T", "P", "E", "Z", "Y"])) = _
  unfold scaleAmount
  rw [if_pos (by
    have hq : (offset : ℚ) < 1000000 := by exact_mod_cast h2
    rw [div_lt_iff (by norm_num : (0:ℚ) < 1000)]
    norm_num
    linarith)]

theorem format_float1_9600 : format_float1 (((9600 : Nat) : ℚ) / 1024) = "9.4" := by
  have h1 : ((9600 : Nat) : ℚ) / 1024 = 75 / 8 := by norm_num
  rw [h1]
  unfold format_float1 roundHalfEven
  rw [show ⌊(75 : ℚ) / 8 * 10⌋ = 93 from by norm_num]
  rw [if_neg (by norm_num), if_pos (by norm_num)]
  decide

theorem format_float1_two : format_float1 (2 : ℚ) = "2.0" := by
  unfold format_float1 roundHalfEven
  rw [show ⌊(2 : ℚ) * 10⌋ = 20 from by norm_num]
  rw [if_pos (by norm_num)]
  decide

theorem format_float1_2048 : format_float1 (((2048 : Nat) : ℚ) / 1024) = "2.0" := by
  rw [show ((2048 : Nat) : ℚ) / 1024 = 2 from by norm_num]
  exact format_float1_two

theorem format_float1_dec_9600 : format_float1 (((9600 : Nat) : ℚ) / 1000) = "9.6" := by
  have h1 : ((9600 : Nat) : ℚ) / 1000 = 48 / 5 := by norm_num
  rw [h1]
  unfold format_float1 roundHalfEven
  rw [show ⌊(48 : ℚ) / 5 * 10⌋ = 96 from by norm_num]
  rw [if_pos (by norm_num)]
  decide

/-- 2 MiB scales twice, to the `Mi` unit, and renders "2.0Mi". -/
theorem render_size_mi_2mib :
    render_size (some 2097152) SizeFormat.BinaryBytes
      = { text := "2.0Mi", length := 5 } := by
  unfold render_size
  dsimp only
  unfold number_prefix_binary
  rw [if_neg (not_lt.mpr (by norm_num : (1024 : ℚ) ≤ ((2097152 : Nat) : ℚ)))]
  show renderSizeResult
    (scaleAmount 1024 (((2097152 : Nat) : ℚ) / 1024)
      ("Ki" :: "Mi" :: "Gi" :: ["Ti", "Pi", "Ei", "Zi", "Yi"])) = _
  unfold scaleAmount
  rw [if_neg (by norm_num : ¬ ((2097152 : Nat) : ℚ) / 1024 < 1024)]
  unfold scaleAmount
  rw [if_pos (by norm_num : ((2097152 : Nat) : ℚ) / 1024 / 1024 < 1024)]
  simp only [renderSizeResult]
  rw [show ((2097152 : Nat) : ℚ) / 1024 / 1024 = 2 from by norm_num]
  rw [if_pos (by norm_num : (2 : ℚ) < 10), format_float1_two]
  decide

/-- C3 amended: absent sizes render as the width-1 dash; the raw policy
prints the integer numeral; under a suffixed policy a value below the
base (1000 decimal, 1024 binary) prints as the plain integer with no
suffix, while a value at or above the base — under either suffixed
policy — is scaled to a unit symbol and rendered with one decimal place
when the scaled value is under 10 and as a truncated integer when at
least 10, the width being numeral length plus suffix length; 9600 binary
renders as "9.4" + "Ki" (width 5), 9600 decimal as "9.6" + "k", 2 MiB as
"2.0" + "Mi", and 0 takes the present-value path, not the absent-dash
path. -/
theorem c3_amended_size_rendering :
    (∀ fmt, render_size none fmt = Cell.paint "-" ∧ (Cell.paint "-").length = 1)
    ∧ (∀ offset : Nat, render_size (some offset) SizeFormat.JustBytes
        = Cell.paint (format_int (offset : Int)))
    ∧ (∀ offset : Nat, offset < 1024 →
        render_size (some offset) SizeFormat.BinaryBytes
          = Cell.paint (toString (offset : ℚ)))
    ∧ (∀ offset : Nat, offset < 1000 →
        render_size (some offset) SizeFormat.DecimalBytes
          = Cell.paint (toString (offset : ℚ)))
    ∧ (∀ offset : Nat, 1024 ≤ offset → ∃ k sym,
        (["Ki", "Mi", "Gi", "Ti", "Pi", "Ei", "Zi", "Yi"] : List String).get? k
            = some sym
        ∧ (1024 : ℚ) ^ (k + 1) ≤ (offset : ℚ)
        ∧ ((offset : ℚ) / 1024 ^ (k + 1) < 1024 ∨ k = 7)
        ∧ render_size (some offset) SizeFormat.BinaryBytes
            = { text := scaledNumber ((offset : ℚ) / 1024 ^ (k + 1)) ++ sym,
                length := (scaledNumber ((offset : ℚ) / 1024 ^ (k + 1))).length
                  + sym.length })
    ∧ (∀ offset : Nat, 1000 ≤ offset → ∃ k sym,
        (["k", "M", "G", "T", "P", "E", "Z", "Y"] : List String).get? k = some sym
        ∧ (1000 : ℚ) ^ (k + 1) ≤ (offset : ℚ)
        ∧ ((offset : ℚ) / 1000 ^ (k + 1) < 1000 ∨ k = 7)
        ∧ render_size (some offset) SizeFormat.DecimalBytes
            = { text := scaledNumber ((offset : ℚ) / 1000 ^ (k + 1)) ++ sym,
                length := (scaledNumber ((offset : ℚ) / 1000 ^ (k + 1))).length
                  + sym.length })
    ∧ (∀ offset : Nat, 1024 ≤ offset → offset < 1048576 →
        render_size (some offset) SizeFormat.BinaryBytes
          = (let n : ℚ := (offset : ℚ) / 1024
             let number := if n < 10 then format_float1 n else format_int ⌊n⌋
             { text := number ++ "Ki", length := number.length + 2 }))
    ∧ render_size (some 9600) SizeFormat.BinaryBytes = { text := "9.4Ki", length := 5 }
    ∧ render_size (some 9600) SizeFormat.DecimalBytes = { text := "9.6k", length := 4 }
    ∧ render_size (some 2097152) SizeFormat.BinaryBytes = { text := "2.0Mi", length := 5 }
    ∧ render_size (some 0) SizeFormat.BinaryBytes = { text := "0", length := 1 }
    ∧ render_size (some 0) SizeFormat.BinaryBytes ≠ Cell.paint "-" := by
  have hki : ∀ offset : Nat, 1024 ≤ offset → offset < 1048576 →
      render_size (some offset) SizeFormat.BinaryBytes
        = (let n : ℚ := (offset : ℚ) / 1024
           let number := if n < 10 then format_float1 n else format_int ⌊n⌋
           { text := number ++ "Ki", length := number.length + 2 }) := by
    intro offset h1 h2
    rw [render_size_ki offset h1 h2]
    rfl
  have h9600 : render_size (some 9600) SizeFormat.BinaryBytes
      = { text := "9.4Ki", length := 5 } := by
    rw [render_size_ki 9600 (by norm_num) (by norm_num)]
    simp only [renderSizeResult]
    rw [if_pos (by norm_num : ((9600 : Nat) : ℚ) / 1024 < 10), format_float1_9600]
    decide
  have h9600d : render_size (some 9600) SizeFormat.DecimalBytes
      = { text := "9.6k", length := 4 } := by
    rw [render_size_k_decimal 9600 (by norm_num) (by norm_num)]
    simp only [renderSizeResult]
    rw [if_pos (by norm_num : ((9600 : Nat) : ℚ) / 1000 < 10), format_float1_dec_9600]
    decide
  have h0 : render_size (some 0) SizeFormat.BinaryBytes
      = { text := "0", length := 1 } := by
    rw [render_size_below_binary 0 (by norm_num)]
    decide
  refine ⟨fun fmt => ⟨rfl, rfl⟩, fun offset => rfl,
    render_size_below_binary, render_size_below_decimal,
    render_size_scaled_binary, render_size_scaled_decimal,
    hki, h9600, h9600d, render_size_mi_2mib, h0, ?_⟩
  rw [h0]
  decide

/-- Witness for C3's amended statement: the general scaled conjuncts
instantiated at 2 MiB (binary) and 9600 bytes (decimal), the one-step
binary window at 2048, and the below-base case at 5 bytes, through the
amended statement's quantified conjuncts. -/
theorem c3_amended_size_rendering_witness :
    (∃ k sym,
      (["Ki", "Mi", "Gi", "Ti", "Pi", "Ei", "Zi", "Yi"] : List String).get? k
          = some sym
      ∧ (1024 : ℚ) ^ (k + 1) ≤ ((2097152 : Nat) : ℚ)
      ∧ (((2097152 : Nat) : ℚ) / 1024 ^ (k + 1) < 1024 ∨ k = 7)
      ∧ render_size (some 2097152) SizeFormat.BinaryBytes
          = { text := scaledNumber (((2097152 : Nat) : ℚ) / 1024 ^ (k + 1)) ++ sym,
              length := (scaledNumber (((2097152 : Nat) : ℚ) / 1024 ^ (k + 1))).length
                + sym.length })
    ∧ (∃ k sym,
      (["k", "M", "G", "T", "P", "E", "Z", "Y"] : List String).get? k = some sym
      ∧ (1000 : ℚ) ^ (k + 1) ≤ ((9600 : Nat) : ℚ)
      ∧ (((9600 : Nat) : ℚ) / 1000 ^ (k + 1) < 1000 ∨ k = 7)
      ∧ render_size (some 9600) SizeFormat.DecimalBytes
          = { text := scaledNumber (((9600 : Nat) : ℚ) / 1000 ^ (k + 1)) ++ sym,
              length := (scaledNumber (((9600 : Nat) : ℚ) / 1000 ^ (k + 1))).length
                + sym.length })
    ∧ render_size (some 2048) SizeFormat.BinaryBytes = { text := "2.0Ki", length := 5 }
    ∧ render_size (some 5) SizeFormat.BinaryBytes = Cell.paint (toString ((5 : Nat) : ℚ)) := by
  refine ⟨c3_amended_size_rendering.2.2.2.2.1 2097152 (by norm_num),
    c3_amended_size_rendering.2.2.2.2.2.1 9600 (by norm_num), ?_,
    c3_amended_size_rendering.2.2.1 5 (by norm_num)⟩
  rw [c3_amended_size_rendering.2.2.2.2.2.2.1 2048 (by norm_num) (by norm_num)]
  dsimp only
  rw [if_pos (by norm_num : ((2048 : Nat) : ℚ) / 1024 < 10), format_float1_2048]
  decide

/-- C9: the same-year/other-year decision of `render_time` is made, for
every timestamp rendered with a table, against the single `current_year`
captured from the clock reading at `with_options` time; the renderer
takes no clock of its own, so the snapshot is used unchanged for every
row. -/
theorem c9_current_year_snapshot (columns : List Column)
    (timeLoc : TimeLocale) (tz : TimeZone) (users : MockUsers)
    (now : DateTime) (tss : List Int) :
    (Table.with_options columns timeLoc tz users now).1.current_year = now.year
    ∧ ∀ ts ∈ tss,
        render_time (Table.with_options columns timeLoc tz users now).1 ts
          = (if (tz.convert ts).year = now.year
             then Cell.paint (fmtSameYear timeLoc (tz.convert ts))
             else Cell.paint (fmtOtherYear timeLoc (tz.convert ts))) := by
  exact ⟨rfl, fun ts _ => rfl⟩

/-- Witness for C9: with the snapshot year 2016, timestamp 5 renders in
the same-year format and timestamp 200 in the other-year format. -/
theorem c9_current_year_snapshot_witness :
    render_time (Table.with_options [] TimeLocale.english c9Tz
        (MockUsers.mk 0 [] []) (DateTime.mk 2016 1 1 0 0)).1 5
      = Cell.paint (fmtSameYear TimeLocale.english (c9Tz.convert 5))
    ∧ render_time (Table.with_options [] TimeLocale.english c9Tz
        (MockUsers.mk 0 [] []) (DateTime.mk 2016 1 1 0 0)).1 200
      = Cell.paint (fmtOtherYear TimeLocale.english (c9Tz.convert 200)) := by
  have h := c9_current_year_snapshot [] TimeLocale.english c9Tz
    (MockUsers.mk 0 [] []) (DateTime.mk 2016 1 1 0 0) [5, 200]
  have h5 := h.2 5 (by simp)
  have h200 := h.2 200 (by simp)
  rw [h5, h200]
  constructor
  · rw [if_pos (by decide)]
  · rw [if_neg (by decide)]

theorem LawfulCmp.total {α : Type} {cmp : α → α → Ordering}
    (hl : LawfulCmp cmp) (a b : α) : leCmp cmp a b ∨ leCmp cmp b a := by
  by_cases h : cmp a b = Ordering.gt
  · right
    intro hgt
    have := (hl.lt_iff_gt b a).mpr h
    rw [this] at hgt
    cases hgt
  · left
    exact h

theorem LawfulCmp.le_le_eq {α : Type} {cmp : α → α → Ordering}
    (hl : LawfulCmp cmp) (a b : α) (h1 : leCmp cmp a b) (h2 : leCmp cmp b a) :
    cmp a b = Ordering.eq := by
  cases hord : cmp a b with
  | lt => exact absurd ((hl.lt_iff_gt a b).mp hord) h2
  | eq => rfl
  | gt => exact absurd hord h1

/-- Two sorted lists that are permutations of each other agree, given
antisymmetry on their members. -/
theorem sorted_perm_eq {α : Type} (le : α → α → Prop) :
    ∀ (l1 l2 : List α), l1.Perm l2 → l1.Sorted le → l2.Sorted le →
      (∀ a ∈ l1, ∀ b ∈ l1, le a b → le b a → a = b) → l1 = l2
  | [], l2, hp, _, _, _ => hp.nil_eq
  | a :: t1, l2, hp, hs1, hs2, hanti => by
      cases l2 with
      | nil =>
          have := hp.length_eq
          simp at this
      | cons b t2 =>
          have hab : a = b := by
            have hmem_b : b ∈ a :: t1 := hp.mem_iff.mpr (List.mem_cons_self b t2)
            have hmem_a : a ∈ b :: t2 := hp.mem_iff.mp (List.mem_cons_self a t1)
            rcases List.mem_cons.mp hmem_b with h | h
            · exact h.symm
            rcases List.mem_cons.mp hmem_a with h2 | h2
            · exact h2
            exact hanti a (List.mem_cons_self a t1) b (List.mem_cons.mpr (Or.inr h))
              ((List.sorted_cons.mp hs1).1 b h) ((List.sorted_cons.mp hs2).1 a h2)
          subst hab
          have ht := sorted_perm_eq le t1 t2 hp.cons_inv
            (List.sorted_cons.mp hs1).2 (List.sorted_cons.mp hs2).2
            (fun x hx y hy => hanti x (List.mem_cons_of_mem _ hx)
              y (List.mem_cons_of_mem _ hy))
          rw [ht]

theorem sort_by_perm {α : Type} (cmp : α → α → Ordering) (l : List α) :
    (sort_by cmp l).Perm l :=
  List.perm_insertionSort _ l

theorem sort_by_sorted {α : Type} {cmp : α → α → Ordering}
    (hl : LawfulCmp cmp) (l : List α) :
    (sort_by cmp l).Sorted (fun a b => cmp a b ≠ Ordering.gt) := by
  haveI : IsTotal α (fun a b => cmp a b ≠ Ordering.gt) := ⟨hl.total⟩
  haveI : IsTrans α (fun a b => cmp a b ≠ Ordering.gt) := ⟨hl.trans⟩
  exact List.sorted_insertionSort _ l

/-- C2 amended: for a batch whose completed egg buffer is any permutation
of the entries' eggs (the workers' completion order is arbitrary), when
the externally supplied comparator is a total order with no ties between
distinct batch members, the sorted buffer — and with it the emitted row
sequence — is the same for every completion order, i.e. determined by
the original entry set alone. -/
theorem c2_amended_order_determined_when_tie_free
    (recurse : List FsFile → List Row) (D : Details) (depth : Nat)
    (base c1 c2 : List Egg)
    (h1 : c1.Perm base) (h2 : c2.Perm base)
    (hl : LawfulCmp D.cmp)
    (htf : ∀ a ∈ base, ∀ b ∈ base,
      D.cmp a.file.fmeta b.file.fmeta = Ordering.eq → a = b) :
    sort_by (fun a b => D.cmp a.file.fmeta b.file.fmeta) c1
      = sort_by (fun a b => D.cmp a.file.fmeta b.file.fmeta) c2
    ∧ processEggs recurse D depth c1 = processEggs recurse D depth c2 := by
  have hle : LawfulCmp (fun a b : Egg => D.cmp a.file.fmeta b.file.fmeta) :=
    { trans := fun a b c => hl.trans a.file.fmeta b.file.fmeta c.file.fmeta,
      lt_iff_gt := fun a b => hl.lt_iff_gt a.file.fmeta b.file.fmeta,
      eq_symm := fun a b => hl.eq_symm a.file.fmeta b.file.fmeta }
  have hperm : (sort_by (fun a b : Egg => D.cmp a.file.fmeta b.file.fmeta) c1).Perm
      (sort_by (fun a b : Egg => D.cmp a.file.fmeta b.file.fmeta) c2) :=
    ((sort_by_perm _ c1).trans h1).trans
      (h2.symm.trans (sort_by_perm _ c2).symm)
  have hmem1 : ∀ a ∈ sort_by (fun a b : Egg => D.cmp a.file.fmeta b.file.fmeta) c1,
      a ∈ base :=
    fun a ha => h1.mem_iff.mp ((sort_by_perm _ c1).mem_iff.mp ha)
  have hsorteq : sort_by (fun a b : Egg => D.cmp a.file.fmeta b.file.fmeta) c1
      = sort_by (fun a b : Egg => D.cmp a.file.fmeta b.file.fmeta) c2 := by
    apply sorted_perm_eq (fun a b : Egg => D.cmp a.file.fmeta b.file.fmeta ≠ Ordering.gt)
      _ _ hperm (sort_by_sorted hle c1) (sort_by_sorted hle c2)
    intro a ha b hb hab hba
    exact htf a (hmem1 a ha) b (hmem1 b hb) (hle.le_le_eq a b hab hba)
  refine ⟨hsorteq, ?_⟩
  unfold processEggs
  rw [hsorteq]

/-- C2 counterexample: with a comparator that ties distinct entries, the
stable sort keeps the completion order of the tied entries, so two
completion orders of the same two-entry batch — each a permutation of
the other — yield different row orders: the concurrency does leak into
the output through ties. -/
theorem c2_counterexample_ties_leak_completion_order :
    ([makeEgg cexTieDetails envDefault [] 0 (mkPlainFs "a" 1),
      makeEgg cexTieDetails envDefault [] 0 (mkPlainFs "b" 2)].Perm
      [makeEgg cexTieDetails envDefault [] 0 (mkPlainFs "b" 2),
       makeEgg cexTieDetails envDefault [] 0 (mkPlainFs "a" 1)])
    ∧ processEggs (fun _ => []) cexTieDetails 0
        [makeEgg cexTieDetails envDefault [] 0 (mkPlainFs "a" 1),
         makeEgg cexTieDetails envDefault [] 0 (mkPlainFs "b" 2)]
      ≠ processEggs (fun _ => []) cexTieDetails 0
        [makeEgg cexTieDetails envDefault [] 0 (mkPlainFs "b" 2),
         makeEgg cexTieDetails envDefault [] 0 (mkPlainFs "a" 1)] := by
  exact ⟨List.Perm.swap _ _ _, by decide⟩

theorem cmpByInode_lawful : LawfulCmp cmpByInode := by
  refine ⟨?_, ?_, ?_⟩
  · intro a b c hab hbc
    simp only [leCmp, cmpByInode, ne_eq, Nat.compare_eq_gt] at hab hbc ⊢
    omega
  · intro a b
    simp only [cmpByInode, Nat.compare_eq_lt, Nat.compare_eq_gt]
  · intro a b h
    simp only [cmpByInode, Nat.compare_eq_eq] at h ⊢
    omega

/-- Witness for C2's amended statement: a two-entry batch with distinct
inodes, compared by inode; both completion orders give the same rows. -/
theorem c2_amended_order_determined_when_tie_free_witness :
    processEggs (fun _ => []) inodeDetails 0
        [makeEgg inodeDetails envDefault [] 0 (mkPlainFs "b" 2),
         makeEgg inodeDetails envDefault [] 0 (mkPlainFs "a" 1)]
      = processEggs (fun _ => []) inodeDetails 0
        [makeEgg inodeDetails envDefault [] 0 (mkPlainFs "a" 1),
         makeEgg inodeDetails envDefault [] 0 (mkPlainFs "b" 2)] := by
  have h := c2_amended_order_determined_when_tie_free (fun _ => []) inodeDetails 0
    [makeEgg inodeDetails envDefault [] 0 (mkPlainFs "a" 1),
     makeEgg inodeDetails envDefault [] 0 (mkPlainFs "b" 2)]
    [makeEgg inodeDetails envDefault [] 0 (mkPlainFs "b" 2),
     makeEgg inodeDetails envDefault [] 0 (mkPlainFs "a" 1)]
    [makeEgg inodeDetails envDefault [] 0 (mkPlainFs "a" 1),
     makeEgg inodeDetails envDefault [] 0 (mkPlainFs "b" 2)]
    (List.Perm.swap _ _ _) (List.Perm.refl _) cmpByInode_lawful ?_
  · exact h.2
  · intro a ha b hb hab
    rcases List.mem_cons.mp ha with h1 | h1
    · rcases List.mem_cons.mp hb with h2 | h2
      · rw [h1, h2]
      · rcases List.mem_cons.mp h2 with h3 | h3
        · subst h1; subst h3
          exact absurd hab (by decide)
        · cases h3
    · rcases List.mem_cons.mp h1 with h2 | h2
      · rcases List.mem_cons.mp hb with h3 | h3
        · subst h2; subst h3
          exact absurd hab (by decide)
        · rcases List.mem_cons.mp h3 with h4 | h4
          · rw [h2, h4]
          · cases h4
      · cases h2

/-- The attribute-then-error group appended for a non-recursing entry:
every row sits at the given depth, has no cells, attribute rows precede
error rows, and `last` is true exactly on the final row of the combined
group. -/
theorem combinedRows_get? (xs : List Attribute)
    (errs : List (IoError × Option String)) (depth i : Nat)
    (h : i < xs.length + errs.length) :
    ∃ r, (combinedRows xs errs depth).get? i = some r
      ∧ r.depth = depth ∧ r.cells = none
      ∧ (∀ hi : i < xs.length, r = xattrRow (xs.get ⟨i, hi⟩) depth
          (errs.isEmpty && i == xs.length - 1))
      ∧ (∀ _ : xs.length ≤ i, r = errorRow (errs.get ⟨i - xs.length, by omega⟩) depth
          (i - xs.length == errs.length - 1))
      ∧ (r.last = true ↔ i = xs.length + errs.length - 1) := by
  by_cases hi : i < xs.length
  · refine ⟨xattrRow (xs.get ⟨i, hi⟩) depth (errs.isEmpty && i == xs.length - 1),
      ?_, rfl, rfl, fun _ => rfl, fun hle => by omega, ?_⟩
    · unfold combinedRows
      rw [List.get?_append (by simpa using hi), List.get?_map, List.enum_get?,
        List.get?_eq_get hi]
      rfl
    · show (errs.isEmpty && i == xs.length - 1) = true ↔ _
      rcases errs with _ | ⟨e, es⟩
      · simp only [List.isEmpty_nil, Bool.true_and, beq_iff_eq, List.length_nil]
        omega
      · simp only [List.isEmpty_cons, Bool.false_and, List.length_cons]
        constructor
        · intro hfalse
          cases hfalse
        · intro heq
          omega
  · have hxle : xs.length ≤ i := by omega
    have hilt : i - xs.length < errs.length := by omega
    refine ⟨errorRow (errs.get ⟨i - xs.length, hilt⟩) depth
        (i - xs.length == errs.length - 1), ?_, rfl, rfl,
      fun hlt => by omega, fun _ => rfl, ?_⟩
    · unfold combinedRows
      have hlenA : ((xs.enum.map (fun ia =>
          xattrRow ia.2 depth (errs.isEmpty && ia.1 == xs.length - 1))).length)
          = xs.length := by simp
      rw [List.get?_append_right (by rw [hlenA]; exact hxle), hlenA,
        List.get?_map, List.enum_get?, List.get?_eq_get hilt]
      rfl
    · show (i - xs.length == errs.length - 1) = true ↔ _
      simp only [beq_iff_eq]
      omega

/-- C4: an entry's own attribute and error rows go to depth+1, attribute
rows before error rows, with one shared last-flag sequence — `last` true
exactly on the final row of the combined group — when no subdirectory is
recursed into; when a readable subdirectory with surviving children was
produced, the attribute and error rows are inserted before the recursive
rows, all at depth+1, where within that depth+1 group none of them is
last (the recursive rows follow). -/
theorem c4_attr_error_row_group (recurse : List FsFile → List Row)
    (D : Details) (depth : Nat) (egg : Egg) (isLast : Bool) :
    (egg.dir = none →
      eggSegment recurse D depth egg isLast
        = { cells := some egg.cells, name := egg.name,
            depth := depth, last := isLast }
          :: combinedRows egg.xattrs egg.errors (depth + 1))
    ∧ (∀ children, egg.dir = some children →
        (filter_files D (okChildren children)).isEmpty = true →
        eggSegment recurse D depth egg isLast
          = { cells := some egg.cells, name := egg.name,
              depth := depth, last := isLast }
            :: combinedRows egg.xattrs (egg.errors ++ childErrors children)
                (depth + 1))
    ∧ (∀ children, egg.dir = some children →
        (filter_files D (okChildren children)).isEmpty = false →
        eggSegment recurse D depth egg isLast
          = { cells := some egg.cells, name := egg.name,
              depth := depth, last := isLast }
            :: (attrRowsAllFalse egg.xattrs (depth + 1)
              ++ errorRowsAllFalse (egg.errors ++ childErrors children) (depth + 1)
              ++ recurse (filter_files D (okChildren children))))
    ∧ (∀ xs errs d i, (h : i < xs.length + errs.length) →
        ∃ r, (combinedRows xs errs d).get? i = some r
          ∧ r.depth = d ∧ r.cells = none
          ∧ (r.last = true ↔ i = xs.length + errs.length - 1))
    ∧ (∀ xs errs d, ∀ r ∈ attrRowsAllFalse xs d ++ errorRowsAllFalse errs d,
        r.last = false ∧ r.depth = d ∧ r.cells = none) := by
  refine ⟨?_, ?_, ?_, ?_, ?_⟩
  · intro hdir
    simp [eggSegment, hdir]
  · intro children hdir hempty
    simp [eggSegment, hdir, hempty]
  · intro children hdir hne
    simp [eggSegment, hdir, hne]
  · intro xs errs d i h
    obtain ⟨r, hr, hd, hc, _, _, hl⟩ := combinedRows_get? xs errs d i h
    exact ⟨r, hr, hd, hc, hl⟩
  · intro xs errs d r hr
    rcases List.mem_append.mp hr with h | h
    · obtain ⟨a, _, ha⟩ := List.mem_map.mp h
      rw [← ha]
      exact ⟨rfl, rfl, rfl⟩
    · obtain ⟨e, _, he⟩ := List.mem_map.mp h
      rw [← he]
      exact ⟨rfl, rfl, rfl⟩

/-- Witness for C4 on `c4Egg`: the segment is the file row followed by
the attribute row (`last` false, an error follows) and the error row
(`last` true), all checked through the theorem's conjuncts. -/
theorem c4_attr_error_row_group_witness :
    eggSegment (fun _ => []) cexTieDetails 0 c4Egg true
      = { cells := some ([] : List Cell), name := Cell.paint "f",
          depth := 0, last := true }
        :: combinedRows c4Egg.xattrs c4Egg.errors 1
    ∧ (∃ r, (combinedRows c4Egg.xattrs c4Egg.errors 1).get? 0 = some r
        ∧ r.depth = 1 ∧ r.cells = none ∧ (r.last = true ↔ (0 : Nat) = 1))
    ∧ (∃ r, (combinedRows c4Egg.xattrs c4Egg.errors 1).get? 1 = some r
        ∧ r.depth = 1 ∧ r.cells = none ∧ (r.last = true ↔ (1 : Nat) = 1)) := by
  have h := c4_attr_error_row_group (fun _ => []) cexTieDetails 0 c4Egg true
  refine ⟨h.1 rfl, ?_, ?_⟩
  · have h0 := h.2.2.2.1 c4Egg.xattrs c4Egg.errors 1 0 (by decide)
    simpa [c4Egg] using h0
  · have h1 := h.2.2.2.1 c4Egg.xattrs c4Egg.errors 1 1 (by decide)
    simpa [c4Egg] using h1

theorem eggSegment_of_dir_none (recurse : List FsFile → List Row)
    (D : Details) (depth : Nat) (egg : Egg) (isLast : Bool)
    (h : egg.dir = none) :
    eggSegment recurse D depth egg isLast
      = { cells := some egg.cells, name := egg.name,
          depth := depth, last := isLast }
        :: combinedRows egg.xattrs egg.errors (depth + 1) := by
  simp [eggSegment, h]

theorem eggSegment_head (recurse : List FsFile → List Row) (D : Details)
    (depth : Nat) (egg : Egg) (isLast : Bool) :
    ∃ t, eggSegment recurse D depth egg isLast
      = ({ cells := some egg.cells, name := egg.name,
           depth := depth, last := isLast } : Row) :: t := by
  unfold eggSegment
  cases hd : egg.dir with
  | none => exact ⟨_, rfl⟩
  | some children =>
      dsimp only
      split
      · exact ⟨_, rfl⟩
      · exact ⟨_, rfl⟩

/-- Every entry of a batch contributes its file row at the batch's depth:
no per-entry failure aborts the batch. -/
theorem file_row_mem_add_files (fuel : Nat) (D : Details) (env : TableEnv)
    (cols : List Column) (src : List FsFile) (depth : Nat)
    (f : FsFile) (hf : f ∈ src) :
    ∃ b, ({ cells := some (makeEgg D env cols depth f).cells,
            name := (makeEgg D env cols depth f).name,
            depth := depth, last := b } : Row)
      ∈ add_files_to_table (fuel + 1) D env cols src depth := by
  have hmem : makeEgg D env cols depth f ∈ src.map (makeEgg D env cols depth) :=
    List.mem_map_of_mem _ hf
  have hmem2 : makeEgg D env cols depth f
      ∈ sort_by (fun a b => D.cmp a.file.fmeta b.file.fmeta)
          (src.map (makeEgg D env cols depth)) :=
    (sort_by_perm _ _).mem_iff.mpr hmem
  obtain ⟨n, hn⟩ := List.mem_iff_get?.mp hmem2
  have henum : (n, makeEgg D env cols depth f)
      ∈ (sort_by (fun a b => D.cmp a.file.fmeta b.file.fmeta)
          (src.map (makeEgg D env cols depth))).enum :=
    List.mem_enum_iff_get?.mpr hn
  refine ⟨n == (sort_by (fun a b => D.cmp a.file.fmeta b.file.fmeta)
      (src.map (makeEgg D env cols depth))).length - 1, ?_⟩
  show _ ∈ add_files_to_table (fuel + 1) D env cols src depth
  have hunfold : add_files_to_table (fuel + 1) D env cols src depth
      = processEggs (fun files => add_files_to_table fuel D env cols files (depth + 1))
          D depth (src.map (makeEgg D env cols depth)) := rfl
  rw [hunfold]
  unfold processEggs
  apply List.mem_join.mpr
  obtain ⟨t, ht⟩ := eggSegment_head
    (fun files => add_files_to_table fuel D env cols files (depth + 1))
    D depth (makeEgg D env cols depth f)
    (n == (sort_by (fun a b => D.cmp a.file.fmeta b.file.fmeta)
      (src.map (makeEgg D env cols depth))).length - 1)
  refine ⟨_, List.mem_map.mpr ⟨(n, makeEgg D env cols depth f), henum, rfl⟩, ?_⟩
  rw [ht]
  exact List.mem_cons_self _ _

/-- C7 amended: (a) an attribute-read failure is recorded as a path-less
error on its entry when extended-attribute display is enabled (with it
disabled the failure is dropped — see the counterexample), and no entry's
failure removes any entry's file row from the batch; (b) a
subdirectory-open failure is silently treated as non-recursable: the egg
gets no directory and the emitted rows are independent of the failure
value, with no error row; (c) a per-child listing failure of an opened
subdirectory becomes a path-qualified error row at depth+1, after the
attribute rows and before the recursive rows of the surviving children. -/
theorem c7_amended_error_taxonomy :
    (∀ (D : Details) (env : TableEnv) (cols : List Column) (depth : Nat)
        (m : File) (e : IoError)
        (d : Except IoError (List (Except (String × IoError) FsFile))),
      D.xattr = true →
      (makeEgg D env cols depth (FsFile.mk m (Except.error e) d)).errors = [(e, none)]
      ∧ (makeEgg D env cols depth (FsFile.mk m (Except.error e) d)).xattrs = [])
    ∧ (∀ (fuel : Nat) (D : Details) (env : TableEnv) (cols : List Column)
        (src : List FsFile) (depth : Nat) (f : FsFile), f ∈ src →
        ∃ b, ({ cells := some (makeEgg D env cols depth f).cells,
                name := (makeEgg D env cols depth f).name,
                depth := depth, last := b } : Row)
          ∈ add_files_to_table (fuel + 1) D env cols src depth)
    ∧ (∀ (D : Details) (env : TableEnv) (cols : List Column) (depth : Nat)
        (m : File) (a : Except IoError (List Attribute)) (e e2 : IoError)
        (recurse : List FsFile → List Row) (isLast : Bool),
      (makeEgg D env cols depth (FsFile.mk m a (Except.error e))).dir = none
      ∧ eggSegment recurse D depth
          (makeEgg D env cols depth (FsFile.mk m a (Except.error e))) isLast
        = eggSegment recurse D depth
            (makeEgg D env cols depth (FsFile.mk m a (Except.error e2))) isLast)
    ∧ (∀ recurse (D : Details) (depth : Nat) (egg : Egg) (isLast : Bool) children,
        egg.dir = some children →
        (filter_files D (okChildren children)).isEmpty = false →
        eggSegment recurse D depth egg isLast
          = { cells := some egg.cells, name := egg.name,
              depth := depth, last := isLast }
            :: (attrRowsAllFalse egg.xattrs (depth + 1)
              ++ errorRowsAllFalse (egg.errors ++ childErrors children) (depth + 1)
              ++ recurse (filter_files D (okChildren children))))
    ∧ (∀ (p : String) (e : IoError) (d : Nat) (l : Bool),
        errorRow (e, some p) d l
          = { cells := none,
              name := Cell.paint ("<" ++ p ++ ": " ++ e.msg ++ ">"),
              depth := d, last := l })
    ∧ (∀ children (p : String) (e : IoError),
        Except.error (p, e) ∈ children → (e, some p) ∈ childErrors children) := by
  have hdirnone : ∀ (D : Details) (env : TableEnv) (cols : List Column) (depth : Nat)
      (m : File) (a : Except IoError (List Attribute)) (e : IoError),
      (makeEgg D env cols depth (FsFile.mk m a (Except.error e))).dir = none := by
    intro D env cols depth m a e
    unfold makeEgg
    dsimp only [FsFile.toDir]
    rcases hr : D.recurse with _ | r
    · simp [hr]
    · simp only [hr]
      split
      · rfl
      · rfl
  refine ⟨?_, file_row_mem_add_files, ?_, ?_, fun p e d l => rfl, ?_⟩
  · intro D env cols depth m e d h
    constructor
    · simp [makeEgg, FsFile.attrs, h]
    · simp [makeEgg, FsFile.attrs, h]
  · intro D env cols depth m a e e2 recurse isLast
    refine ⟨hdirnone D env cols depth m a e, ?_⟩
    rw [eggSegment_of_dir_none _ _ _ _ _ (hdirnone D env cols depth m a e),
      eggSegment_of_dir_none _ _ _ _ _ (hdirnone D env cols depth m a e2)]
    rfl
  · intro recurse D depth egg isLast children hdir hne
    simp [eggSegment, hdir, hne]
  · intro children p e hmem
    apply List.mem_filterMap.mpr
    exact ⟨Except.error (p, e), hmem, rfl⟩

/-- C7 counterexample: with extended-attribute display disabled, an
attribute-read failure is not recorded anywhere — the batch's only row
is the file row, with no error row — whereas the claim says every
attribute-read failure is recorded as an error row on its entry. -/
theorem c7_counterexample_attr_error_dropped :
    cexTieDetails.xattr = false
    ∧ (makeEgg cexTieDetails envDefault [] 0
        (FsFile.mk (mkFileMeta "f" 1) (Except.error { msg := "eperm" })
          (Except.error { msg := "nd" }))).errors = []
    ∧ add_files_to_table 1 cexTieDetails envDefault []
        [FsFile.mk (mkFileMeta "f" 1) (Except.error { msg := "eperm" })
          (Except.error { msg := "nd" })] 0
      = [{ cells := some [], name := { text := "f", length := 1 },
           depth := 0, last := true }] := by
  refine ⟨rfl, rfl, ?_⟩
  decide

/-- Witness for C7's amended statement at concrete inputs: the recorded
path-less attribute error, the silently dropped directory-open failure,
the file row surviving in the batch, and the path-qualified error row. -/
theorem c7_amended_error_taxonomy_witness :
    (makeEgg xattrDetails envDefault [] 0
        (FsFile.mk (mkFileMeta "f" 1) (Except.error { msg := "eperm" })
          (Except.error { msg := "nd" }))).errors
      = [({ msg := "eperm" }, none)]
    ∧ (makeEgg xattrDetails envDefault [] 0
        (FsFile.mk (mkFileMeta "g" 2) (Except.ok [])
          (Except.error { msg := "denied" }))).dir = none
    ∧ (∃ b, ({ cells := some (makeEgg xattrDetails envDefault [] 0
                  (mkPlainFs "h" 3)).cells,
               name := (makeEgg xattrDetails envDefault [] 0 (mkPlainFs "h" 3)).name,
               depth := 0, last := b } : Row)
        ∈ add_files_to_table 1 xattrDetails envDefault [] [mkPlainFs "h" 3] 0)
    ∧ errorRow ({ msg := "io" }, some "p") 1 true
        = { cells := none, name := Cell.paint "<p: io>", depth := 1, last := true } := by
  have h := c7_amended_error_taxonomy
  refine ⟨(h.1 xattrDetails envDefault [] 0 (mkFileMeta "f" 1) { msg := "eperm" }
      (Except.error { msg := "nd" }) rfl).1,
    (h.2.2.1 xattrDetails envDefault [] 0 (mkFileMeta "g" 2) (Except.ok [])
      { msg := "denied" } { msg := "denied" } (fun _ => []) false).1,
    h.2.1 0 xattrDetails envDefault [] [mkPlainFs "h" 3] 0 (mkPlainFs "h" 3)
      (List.mem_cons_self _ _), ?_⟩
  rw [h.2.2.2.2.1 "p" { msg := "io" } 1 true]
  decide

theorem combinedRows_cells_none (xs : List Attribute)
    (errs : List (IoError × Option String)) (d : Nat) (r : Row)
    (hr : r ∈ combinedRows xs errs d) : r.cells = none := by
  unfold combinedRows at hr
  rcases List.mem_append.mp hr with h | h
  · obtain ⟨a, _, ha⟩ := List.mem_map.mp h
    rw [← ha]
    rfl
  · obtain ⟨e, _, he⟩ := List.mem_map.mp h
    rw [← he]
    rfl

theorem eggSegment_mem_cases (recurse : List FsFile → List Row) (D : Details)
    (depth : Nat) (egg : Egg) (isLast : Bool) (r : Row)
    (hr : r ∈ eggSegment recurse D depth egg isLast) :
    r = { cells := some egg.cells, name := egg.name,
          depth := depth, last := isLast }
    ∨ r.cells = none ∨ ∃ files, r ∈ recurse files := by
  unfold eggSegment at hr
  rcases hd : egg.dir with _ | children
  · rw [hd] at hr
    dsimp only at hr
    rcases List.mem_cons.mp hr with h | h
    · exact Or.inl h
    · exact Or.inr (Or.inl (combinedRows_cells_none _ _ _ _ h))
  · rw [hd] at hr
    dsimp only at hr
    split at hr
    · rcases List.mem_cons.mp hr with h | h
      · exact Or.inl h
      · exact Or.inr (Or.inl (combinedRows_cells_none _ _ _ _ h))
    · rcases List.mem_cons.mp hr with h | h
      · exact Or.inl h
      · rcases List.mem_append.mp h with h2 | h2
        · rcases List.mem_append.mp h2 with h3 | h3
          · obtain ⟨a, _, ha⟩ := List.mem_map.mp h3
            rw [← ha]
            exact Or.inr (Or.inl rfl)
          · obtain ⟨e, _, he⟩ := List.mem_map.mp h3
            rw [← he]
            exact Or.inr (Or.inl rfl)
        · exact Or.inr (Or.inr ⟨_, h2⟩)

/-- Every row the collector ever appends is well-formed: file rows carry
one cell per column (`cells_for_file` maps the column list), attribute
and error rows carry none. -/
theorem add_files_rows_wf (fuel : Nat) (D : Details) (env : TableEnv)
    (columns : List Column) (src : List FsFile) (depth : Nat) (r : Row)
    (hr : r ∈ add_files_to_table fuel D env columns src depth) :
    r.wfCells columns.length := by
  induction fuel generalizing src depth r with
  | zero => cases hr
  | succ fuel ih =>
      have hunf : add_files_to_table (fuel + 1) D env columns src depth
          = processEggs
              (fun files => add_files_to_table fuel D env columns files (depth + 1))
              D depth (src.map (makeEgg D env columns depth)) := rfl
      rw [hunf] at hr
      unfold processEggs at hr
      obtain ⟨seg, hseg, hrseg⟩ := List.mem_join.mp hr
      obtain ⟨ie, hie, hsegeq⟩ := List.mem_map.mp hseg
      rw [← hsegeq] at hrseg
      have hegg : ie.2 ∈ src.map (makeEgg D env columns depth) := by
        have := List.mem_enum_iff_get?.mp hie
        exact (sort_by_perm _ _).mem_iff.mp (List.get?_mem this)
      obtain ⟨f, _, hf⟩ := List.mem_map.mp hegg
      rcases eggSegment_mem_cases _ _ _ _ _ _ hrseg with h | h | ⟨files, h⟩
      · rw [h]
        show cellsWf columns.length (some ie.2.cells)
        rw [← hf]
        simp [makeEgg, cells_for_file, cellsWf]
      · show cellsWf columns.length r.cells
        rw [h]
        trivial
      · exact ih files (depth + 1) r h

/-- C10: in `print_table`, for any table whose rows carry one cell per
column — as every row the collector builds via `cells_for_file` and the
header row do — the per-column indexing is in bounds and the computed
column width dominates each row's cell width, so the padding subtraction
never underflows. -/
theorem c10_indexing_and_padding_safe (t : Table)
    (hwf : ∀ r ∈ t.rows, r.wfCells t.columns.length) :
    (∀ r ∈ t.rows, ∀ cs, r.cells = some cs → ∀ n, n < t.columns.length →
      n < cs.length
      ∧ ∃ c, cs.get? n = some c ∧ c.length ≤ specColumnWidth t.rows n
          ∧ t.column_widths.get? n = some (specColumnWidth t.rows n))
    ∧ (∀ env columns file xattrs,
        (cells_for_file env columns file xattrs).length = columns.length)
    ∧ (∀ t2 : Table, (Table.add_header t2).rows.getLast? = some
        { cells := some (t2.columns.map (fun c => Cell.paint c.header)),
          name := Cell.paint "Name", depth := 0, last := false }
        ∧ (t2.columns.map (fun c => Cell.paint c.header)).length
            = t2.columns.length)
    ∧ (∀ fuel D env columns src depth,
        ∀ r ∈ add_files_to_table fuel D env columns src depth,
          r.wfCells columns.length) := by
  refine ⟨?_, ?_, ?_, fun fuel D env columns src depth r hr =>
    add_files_rows_wf fuel D env columns src depth r hr⟩
  · intro r hr cs hcs n hn
    have hlen : cs.length = t.columns.length := by
      have := hwf r hr
      rw [Row.wfCells, hcs] at this
      exact this
    have hnlt : n < cs.length := by omega
    obtain ⟨c, hc⟩ : ∃ c, cs.get? n = some c :=
      ⟨cs.get ⟨n, hnlt⟩, List.get?_eq_get hnlt⟩
    refine ⟨hnlt, c, hc, ?_, column_widths_get? t n hn⟩
    have := cell_width_le_spec hr hcs n
    rw [hc] at this
    simpa using this
  · intro env columns file xattrs
    simp [cells_for_file]
  · intro t2
    constructor
    · unfold Table.add_header
      simp
    · simp

/-- Witness for C10 on `c1Table` (well-formed, checked by evaluation):
the second cell of the first row is in bounds and within the computed
column width, and `cells_for_file` yields one cell for one column. -/
theorem c10_indexing_and_padding_safe_witness :
    (1 < ([Cell.paint "ab", Cell.paint "1"] : List Cell).length
      ∧ ∃ c, ([Cell.paint "ab", Cell.paint "1"] : List Cell).get? 1 = some c
          ∧ c.length ≤ specColumnWidth c1Table.rows 1
          ∧ c1Table.column_widths.get? 1 = some (specColumnWidth c1Table.rows 1))
    ∧ (cells_for_file envDefault [Column.Permissions] (mkFileMeta "f" 1) false).length
        = 1 := by
  have h := c10_indexing_and_padding_safe c1Table (by decide)
  constructor
  · exact h.1 (c1Table.rows.get ⟨0, by decide⟩) (List.get_mem _ _ _)
      [Cell.paint "ab", Cell.paint "1"] (by decide) 1 (by decide)
  · simpa using h.2.1 envDefault [Column.Permissions] (mkFileMeta "f" 1) false
